import Mathlib

/-!
# goi: a lossless RGBA image codec (QOI-style chunk stream)

A shallow embedding of `goi.go` (`Encode`, `Decode` and their helpers) together
with theorems about the byte stream the encoder writes and the pixel grid the
decoder rebuilds.

Modelling conventions

* A Go `byte`/`uint8` is a `Fin 256`; the conversion `byte(x)` is `byte x`
  (reduction modulo 256).  Go `int` is taken to be 64 bits wide, so the values
  met here (counters, positions, lengths below `2^32`) never overflow and are
  natural numbers; signed channel differences are integers.
* A byte source (`io.Reader`) is the finite list of bytes it will deliver; a byte
  sink (`io.Writer`, `bytes.Buffer`) is the list of bytes written so far.  Reads
  and writes on such in-memory streams do not fail except by running out of input.
* An `image.Image` is its width, its height and its pixel accessor, with the
  bounds rectangle anchored at the origin.
* An out-of-range slice access aborts a Go program with a run-time panic.  The
  decoder returns `DecodeError.indexOutOfRange` in that case.
-/

namespace Goi

/-! ## Bytes and pixels -/

/-- A Go `byte` (`uint8`). -/
abbrev Byte := Fin 256

/-- The Go conversion `byte(x)` of a non-negative integer: its low 8 bits. -/
def byte (n : Nat) : Byte := ⟨n % 256, Nat.mod_lt _ (by decide)⟩

/-- Addition of two `uint8` values, wrapping modulo 256 (Go `a + b`, `a += b`). -/
def add8 (a b : Byte) : Byte := byte (a.val + b.val)

/-- Subtraction of two `uint8` values, wrapping modulo 256 (Go `a - b`). -/
def sub8 (a b : Byte) : Byte := byte (a.val + 256 - b.val)

def qoiIndex : Nat := 0x00
def qoiRun8 : Nat := 0x40
def qoiRun16 : Nat := 0x60
def qoiDiff8 : Nat := 0x80
def qoiDiff16 : Nat := 0xc0
def qoiDiff24 : Nat := 0xe0
def qoiColor : Nat := 0xf0
def qoiMask2 : Nat := 0xc0
def qoiMask3 : Nat := 0xe0
def qoiMask4 : Nat := 0xf0

/-- The type `color.RGBA`: four 8-bit channels. -/
structure RGBA where
  R : Byte
  G : Byte
  B : Byte
  A : Byte
deriving DecidableEq, Repr

/-- The function `colorHash`: the xor of the four channel bytes. -/
def colorHash (c : RGBA) : Byte :=
  byte (c.R.val ^^^ c.G.val ^^^ c.B.val ^^^ c.A.val)

/-- A value of the interface `color.Color`, as far as `rgbaColor` tells colours
apart: a `color.RGBA`, a `color.NRGBA`, or any other colour, given by the four
`uint32` values its `RGBA()` method returns. -/
inductive Color where
  | rgba (c : RGBA)
  | nrgba (r g b a : Byte)
  | other (r g b a : Nat)

/-- The function `rgbaColor`.  In the last case each channel is a `uint32` shifted
left by 8 bits (wrapping at 32 bits) and then converted to `uint8`. -/
def rgbaColor : Color → RGBA
  | .rgba c => c
  | .nrgba r g b a => { R := r, G := g, B := b, A := a }
  | .other r g b a =>
      { R := byte ((r <<< 8) % 2 ^ 32), G := byte ((g <<< 8) % 2 ^ 32),
        B := byte ((b <<< 8) % 2 ^ 32), A := byte ((a <<< 8) % 2 ^ 32) }

/-- The constant `magic`: the ASCII bytes of "qoif". -/
def magic : List Byte := [0x71, 0x6f, 0x69, 0x66]

def headerSize : Nat := 12
def padding : Nat := 4

/-- The function `cond3`. -/
def cond3 (cond : Int) (thn : Nat) (els : Nat) : Nat :=
  if cond ≠ 0 then thn else els

/-! ## Encoder -/

/-- An `image.Image` whose bounds are `(0,0)-(w,h)`. -/
structure Image where
  w : Nat
  h : Nat
  At : Nat → Nat → Color

/-- The 64-slot colour table `index`; only slots `0..63` are ever addressed. -/
abbrev Cache := Nat → RGBA

/-- The assignment `index[k] = c`. -/
def setSlot (index : Cache) (k : Nat) (c : RGBA) : Cache :=
  fun i => if i = k then c else index i

/-- The zero value of `color.RGBA`. -/
def zeroPx : RGBA := { R := 0, G := 0, B := 0, A := 0 }

/-- The value `color.RGBA{A: 255}` both passes start from. -/
def startPx : RGBA := { R := 0, G := 0, B := 0, A := 255 }

/-- The zero value of `[64]color.RGBA`. -/
def zeroCache : Cache := fun _ => zeroPx

/-- The local variables of `Encode` that live across pixels. -/
structure EncState where
  index : Cache
  run : Nat
  pxPrev : RGBA

/-- The state of `Encode` before the first pixel. -/
def encInit : EncState := { index := zeroCache, run := 0, pxPrev := startPx }

/-- The bytes written when a run counter `run > 0` is flushed (lines 91-98). -/
def runChunk (run : Nat) : List Byte :=
  if run < 33 then
    [byte (qoiRun8 ||| (run - 1))]
  else
    [byte (qoiRun16 ||| ((run - 33) >>> 8)), byte (run - 33)]

/-- The bytes written for a pixel that missed the colour table (lines 110-143).
A difference is shifted only in a branch whose guard makes the shifted sum
non-negative, so the sum is converted to a natural number there. -/
def diffChunk (pxPrev px : RGBA) : List Byte :=
  let vr : Int := (px.R.val : Int) - (pxPrev.R.val : Int)
  let vg : Int := (px.G.val : Int) - (pxPrev.G.val : Int)
  let vb : Int := (px.B.val : Int) - (pxPrev.B.val : Int)
  let va : Int := (px.A.val : Int) - (pxPrev.A.val : Int)
  if vr > -16 ∧ vr < 17 ∧ vg > -16 ∧ vg < 17 ∧
      vb > -16 ∧ vb < 17 ∧ va > -16 ∧ va < 17 then
    if va = 0 ∧ vr > -2 ∧ vr < 3 ∧ vg > -2 ∧ vg < 3 ∧ vb > -2 ∧ vb < 3 then
      [byte (qoiDiff8 ||| ((vr + 1).toNat <<< 4) ||| ((vg + 1).toNat <<< 2) ||| (vb + 1).toNat)]
    else if va = 0 ∧ vr > -16 ∧ vr < 17 ∧ vg > -8 ∧ vg < 9 ∧ vb > -8 ∧ vb < 9 then
      [byte (qoiDiff16 ||| (vr + 15).toNat),
       byte (((vg + 7).toNat <<< 4) ||| (vb + 7).toNat)]
    else
      [byte (qoiDiff24 ||| ((vr + 15).toNat >>> 1)),
       byte (((vr + 15).toNat <<< 7) ||| ((vg + 15).toNat <<< 2) ||| ((vb + 15).toNat >>> 3)),
       byte (((vb + 15).toNat <<< 5) ||| (va + 15).toNat)]
  else
    [byte (qoiColor ||| cond3 vr 8 0 ||| cond3 vg 4 0 ||| cond3 vb 2 0 ||| cond3 va 1 0)]
      ++ (if vr ≠ 0 then [px.R] else [])
      ++ (if vg ≠ 0 then [px.G] else [])
      ++ (if vb ≠ 0 then [px.B] else [])
      ++ (if va ≠ 0 then [px.A] else [])

/-- One iteration of the pixel loop of `Encode` (lines 84-146): the new state and
the bytes appended to the buffer. -/
def encodeStep (s : EncState) (px : RGBA) (last : Bool) : EncState × List Byte :=
  let run1 := if px = s.pxPrev then s.run + 1 else s.run
  let flush : Bool := decide (run1 > 0 ∧ (run1 = 0x2020 ∨ px ≠ s.pxPrev ∨ last = true))
  let out1 := if flush then runChunk run1 else []
  let run2 := if flush then 0 else run1
  if px ≠ s.pxPrev then
    let indexPos := (colorHash px).val % 64
    if s.index indexPos = px then
      ({ index := s.index, run := run2, pxPrev := px },
        out1 ++ [byte (qoiIndex ||| indexPos)])
    else
      ({ index := setSlot s.index indexPos px, run := run2, pxPrev := px },
        out1 ++ diffChunk s.pxPrev px)
  else
    ({ index := s.index, run := run2, pxPrev := px }, out1)

/-- The inner loop of `Encode` over `x` for one row `y`; the second component is
the buffer `data`. -/
def encodeRow (m : Image) (y : Nat) (acc : EncState × List Byte) : EncState × List Byte :=
  (List.range m.w).foldl
    (fun acc x =>
      let r := encodeStep acc.1 (rgbaColor (m.At x y)) (x == m.w - 1 && y == m.h - 1)
      (r.1, acc.2 ++ r.2))
    acc

/-- The outer loop of `Encode` over `y`. -/
def encodePixels (m : Image) : EncState × List Byte :=
  (List.range m.h).foldl (fun acc y => encodeRow m y acc) (encInit, [])

/-- The chunk stream written for the pixels of `m`, without the padding. -/
def encodeChunks (m : Image) : List Byte := (encodePixels m).2

/-- The buffer `data` at line 154: the chunk stream followed by the padding. -/
def encodeData (m : Image) : List Byte :=
  encodeChunks m ++ List.replicate padding 0

/-- The call `binary.Write(w, binary.BigEndian, uint16(n))`. -/
def be16 (n : Nat) : List Byte :=
  let v := n % 2 ^ 16
  [byte (v >>> 8), byte v]

/-- The call `binary.Write(w, binary.BigEndian, uint32(n))`. -/
def be32 (n : Nat) : List Byte :=
  let v := n % 2 ^ 32
  [byte (v >>> 24), byte (v >>> 16), byte (v >>> 8), byte v]

/-- The function `Encode`: the bytes written to the sink. -/
def Encode (m : Image) : List Byte :=
  let data := encodeData m
  magic ++ be16 m.w ++ be16 m.h ++ be32 data.length ++ data

/-! ## Decoder -/

/-- How `Decode` can fail: the error of `io.ReadFull` on a short header
(`io.EOF` when nothing was left, `io.ErrUnexpectedEOF` otherwise),
`errInvalidHeader`, `errInvalidFileSize`, and the run-time panic of a slice
access out of range. -/
inductive DecodeError where
  | eof
  | unexpectedEOF
  | invalidHeader
  | invalidFileSize
  | indexOutOfRange
deriving DecidableEq, Repr

/-- The image built by `Decode`: its bounds `(0,0)-(w,h)` and the pixels stored in
`Pix`, one entry per group of four bytes, in the order they are written. -/
structure RGBAImage where
  w : Nat
  h : Nat
  pix : List RGBA
deriving DecidableEq, Repr

/-- The method `At` of `image.RGBA`: the zero colour outside the bounds. -/
def RGBAImage.At (m : RGBAImage) (x y : Nat) : RGBA :=
  if x < m.w ∧ y < m.h then m.pix[y * m.w + x]?.getD zeroPx else zeroPx

/-- The call `binary.Read` of `n > 0` bytes from the source `r`: the bytes read
and the rest of the source. -/
def readFull (r : List Byte) (n : Nat) : Except DecodeError (List Byte × List Byte) :=
  if n ≤ r.length then .ok (r.take n, r.drop n)
  else if r.length = 0 then .error .eof
  else .error .unexpectedEOF

/-- The big-endian value of a byte sequence. -/
def fromBE (bs : List Byte) : Nat :=
  bs.foldl (fun acc b => acc * 256 + b.val) 0

/-- The slice access `data[p]`. -/
def readByte (data : List Byte) (p : Nat) : Except DecodeError Byte :=
  match data[p]? with
  | some b => .ok b
  | none => .error .indexOutOfRange

/-- The local variables of the pixel loop of `Decode`, with the pixels written to
`m.Pix` so far. -/
structure DecState where
  px : RGBA
  index : Cache
  p : Nat
  run : Nat
  pix : List RGBA

/-- The state of `Decode` before the first output position. -/
def decInit : DecState :=
  { px := startPx, index := zeroCache, p := 0, run := 0, pix := [] }

/-- One channel of a COLOR chunk (for instance lines 255-258): when its presence
bit is set the channel is read from `data[p]` and `p` advances, otherwise the
channel keeps its value `old`. -/
def readChannel (data : List Byte) (present : Bool) (old : Byte) (p : Nat) :
    Except DecodeError (Byte × Nat) :=
  if present then (readByte data p).bind fun v => .ok (v, p + 1)
  else .ok (old, p)

/-- The body of the COLOR branch (lines 255-270). -/
def decodeColor (data : List Byte) (b1 : Byte) (px : RGBA) (p : Nat) :
    Except DecodeError (RGBA × Nat) :=
  (readChannel data (decide (b1.val &&& 8 ≠ 0)) px.R p).bind fun r =>
  (readChannel data (decide (b1.val &&& 4 ≠ 0)) px.G r.2).bind fun g =>
  (readChannel data (decide (b1.val &&& 2 ≠ 0)) px.B g.2).bind fun b =>
  (readChannel data (decide (b1.val &&& 1 ≠ 0)) px.A b.2).bind fun a =>
  .ok ({ R := r.1, G := g.1, B := b.1, A := a.1 }, a.2)

/-- The chain of tag tests (lines 227-271) on the first byte `b1` of a chunk, `p`
being the position after that byte: the new pixel, run counter and position. -/
def decodeTag (data : List Byte) (s : DecState) (b1 : Byte) (p : Nat) :
    Except DecodeError (RGBA × Nat × Nat) :=
  let px := s.px
  if b1.val &&& qoiMask2 = qoiIndex then
    .ok (s.index (b1.val ^^^ qoiIndex), s.run, p)
  else if b1.val &&& qoiMask3 = qoiRun8 then
    .ok (px, b1.val &&& 0x1f, p)
  else if b1.val &&& qoiMask3 = qoiRun16 then
    (readByte data p).bind fun b2 =>
    .ok (px, (((b1.val &&& 0x1f) <<< 8) ||| b2.val) + 32, p + 1)
  else if b1.val &&& qoiMask2 = qoiDiff8 then
    .ok ({ R := add8 px.R (sub8 (byte ((b1.val >>> 4) &&& 0x03)) 1)
           G := add8 px.G (sub8 (byte ((b1.val >>> 2) &&& 0x03)) 1)
           B := add8 px.B (sub8 (byte (b1.val &&& 0x03)) 1)
           A := px.A }, s.run, p)
  else if b1.val &&& qoiMask3 = qoiDiff16 then
    (readByte data p).bind fun b2 =>
    .ok ({ R := add8 px.R (sub8 (byte (b1.val &&& 0x1f)) 15)
           G := add8 px.G (sub8 (byte (b2.val >>> 4)) 7)
           B := add8 px.B (sub8 (byte (b2.val &&& 0x0f)) 7)
           A := px.A }, s.run, p + 1)
  else if b1.val &&& qoiMask4 = qoiDiff24 then
    (readByte data p).bind fun b2 =>
    (readByte data (p + 1)).bind fun b3 =>
    .ok ({ R := add8 px.R (sub8 (byte (((b1.val &&& 0x0f) <<< 1) ||| (b2.val >>> 7))) 15)
           G := add8 px.G (sub8 (byte ((b2.val &&& 0x7c) >>> 2)) 15)
           B := add8 px.B
             (sub8 (byte (((b2.val &&& 0x03) <<< 3) ||| ((b3.val &&& 0xe0) >>> 5))) 15)
           A := add8 px.A (sub8 (byte (b3.val &&& 0x1f)) 15) }, s.run, p + 2)
  else if b1.val &&& qoiMask4 = qoiColor then
    (decodeColor data b1 px p).bind fun c => .ok (c.1, s.run, c.2)
  else
    .ok (px, s.run, p)

/-- The chunk decoder (lines 224-273): reads one chunk at position `s.p` and
stores the resulting pixel in the colour table. -/
def decodeChunk (data : List Byte) (s : DecState) : Except DecodeError DecState :=
  (readByte data s.p).bind fun b1 =>
  (decodeTag data s b1 (s.p + 1)).bind fun t =>
  .ok { px := t.1, index := setSlot s.index ((colorHash t.1).val % 64) t.1,
        p := t.2.2, run := t.2.1, pix := s.pix }

/-- One iteration of the pixel loop of `Decode` (lines 221-276). -/
def decodeStep (data : List Byte) (chunksLen : Nat) (s : DecState) :
    Except DecodeError DecState :=
  if s.run > 0 then
    .ok { s with run := s.run - 1, pix := s.pix ++ [s.px] }
  else if s.p < chunksLen then
    (decodeChunk data s).bind fun s1 => .ok { s1 with pix := s1.pix ++ [s1.px] }
  else
    .ok { s with pix := s.pix ++ [s.px] }

/-- The pixel loop of `Decode`, run for `n` output positions. -/
def decodeLoop (data : List Byte) (chunksLen : Nat) : Nat → DecState → Except DecodeError DecState
  | 0, s => .ok s
  | n + 1, s => (decodeStep data chunksLen s).bind (decodeLoop data chunksLen n)

/-- The function `Decode` on the bytes `r` its source delivers.  The value
`chunksLen` is computed in `uint32`, so the subtraction wraps. -/
def Decode (r : List Byte) : Except DecodeError RGBAImage :=
  match readFull r 4 with
  | .error e => .error e
  | .ok (mgc, r1) =>
    match readFull r1 2 with
    | .error e => .error e
    | .ok (wb, r2) =>
      match readFull r2 2 with
      | .error e => .error e
      | .ok (hb, r3) =>
        match readFull r3 4 with
        | .error e => .error e
        | .ok (lb, data) =>
          if mgc ≠ magic then .error .invalidHeader
          else
            let w := fromBE wb
            let h := fromBE hb
            let dataLen := fromBE lb
            if dataLen ≠ data.length then .error .invalidFileSize
            else
              let chunksLen := (dataLen + 2 ^ 32 - padding) % 2 ^ 32
              match decodeLoop data chunksLen (w * h) decInit with
              | .error e => .error e
              | .ok s => .ok { w := w, h := h, pix := s.pix }

/-! ## Auxiliary definitions used in the statements and proofs -/

/-- The outcome of `Decode` once the twelve header bytes are known to be present. -/
def decodeBody (r : List Byte) : Except DecodeError RGBAImage :=
  if r.take 4 ≠ magic then .error .invalidHeader
  else if fromBE ((r.drop 8).take 4) ≠ (r.drop 12).length then .error .invalidFileSize
  else
    match decodeLoop (r.drop 12) ((fromBE ((r.drop 8).take 4) + 2 ^ 32 - padding) % 2 ^ 32)
        (fromBE ((r.drop 4).take 2) * fromBE ((r.drop 6).take 2)) decInit with
    | .error e => .error e
    | .ok s => .ok { w := fromBE ((r.drop 4).take 2), h := fromBE ((r.drop 6).take 2), pix := s.pix }

/-- A computation whose only failure is the run-time panic. -/
def PanicOnly {α : Type} (x : Except DecodeError α) : Prop :=
  ∀ e, x = .error e → e = .indexOutOfRange

/-- The seven tag tests of the decoder (lines 227-254), in the order in which the
chain of `decodeTag` tries them: INDEX, RUN8, RUN16, DIFF8, DIFF16, DIFF24, COLOR. -/
def tagTests (b : Byte) : List Bool :=
  [decide (b.val &&& qoiMask2 = qoiIndex), decide (b.val &&& qoiMask3 = qoiRun8),
   decide (b.val &&& qoiMask3 = qoiRun16), decide (b.val &&& qoiMask2 = qoiDiff8),
   decide (b.val &&& qoiMask3 = qoiDiff16), decide (b.val &&& qoiMask4 = qoiDiff24),
   decide (b.val &&& qoiMask4 = qoiColor)]

/-- The tag tests paired with their position in the chain. -/
def numberedTests (b : Byte) : List (Nat × Bool) :=
  (List.range 7).zip (tagTests b)

deriving instance DecidableEq for Except

/-- The pixels of `m` in the order in which the two loops of `Encode` visit them
(row by row), each paired with the value of `last` computed for it. -/
def pixelSeq (m : Image) : List (RGBA × Bool) :=
  (List.range (m.h * m.w)).map fun k =>
    (rgbaColor (m.At (k % m.w) (k / m.w)), decide (k + 1 = m.h * m.w))

/-- The encoder state after the pixel loop has processed a sequence of pixels. -/
def encEnd (s : EncState) : List (RGBA × Bool) → EncState
  | [] => s
  | t :: tl => encEnd (encodeStep s t.1 t.2).1 tl

/-- The bytes the pixel loop appends to the buffer while processing a sequence of
pixels from state `s`. -/
def encOut (s : EncState) : List (RGBA × Bool) → List Byte
  | [] => []
  | t :: tl => (encodeStep s t.1 t.2).2 ++ encOut (encodeStep s t.1 t.2).1 tl

/-- In a sequence of pixels with their `last` flags, the flag is set exactly on the
final element. -/
def LastFlagged : List (RGBA × Bool) → Prop
  | [] => True
  | t :: tl => (t.2 = true ↔ tl = []) ∧ LastFlagged tl

/-- How the colour table of the decoder relates to that of the encoder while the
decoder reads the encoder's output: the two agree in every slot, except that slot
63 may hold the start pixel in the decoder while it is still zero in the encoder
(the decoder also stores the pixel after a run chunk, the encoder does not). -/
def CacheRel (enc dec : Cache) : Prop :=
  ∀ k, enc k = dec k ∨ (k = 63 ∧ enc k = zeroPx ∧ dec k = startPx)

/-- The previous pixel is in its slot of the encoder's colour table, unless it is
the start pixel and slot 63 has not been written yet. -/
def PrevOK (enc : Cache) (prev : RGBA) : Prop :=
  enc ((colorHash prev).val % 64) = prev ∨ (prev = startPx ∧ enc 63 = zeroPx)

/-- A 2×2 grid of `color.RGBA` pixels used to exercise the theorems. -/
def sampleImage : Image :=
  { w := 2, h := 2,
    At := fun x y => Color.rgba { R := byte (200 * x), G := byte y, B := 7, A := 255 } }

/-- The seven kinds of chunk. -/
inductive ChunkTag where
  | index
  | run8
  | run16
  | diff8
  | diff16
  | diff24
  | color
deriving DecidableEq, Repr

/-- The kind of the chunk that starts with the byte `b1`: the first tag test in
the chain of `decodeTag` (lines 227-254) that holds; `none` if the chain falls
through. -/
def tagOf (b1 : Byte) : Option ChunkTag :=
  if b1.val &&& qoiMask2 = qoiIndex then some .index
  else if b1.val &&& qoiMask3 = qoiRun8 then some .run8
  else if b1.val &&& qoiMask3 = qoiRun16 then some .run16
  else if b1.val &&& qoiMask2 = qoiDiff8 then some .diff8
  else if b1.val &&& qoiMask3 = qoiDiff16 then some .diff16
  else if b1.val &&& qoiMask4 = qoiDiff24 then some .diff24
  else if b1.val &&& qoiMask4 = qoiColor then some .color
  else none

/-- The kind of a chunk given as its list of bytes. -/
def chunkKind (chunk : List Byte) : Option ChunkTag :=
  chunk.head?.bind tagOf

/-- The signed difference `new - old` of two channel values, computed in `int`
without wraparound (lines 110-113). -/
def delta (old new : Byte) : Int := (new.val : Int) - (old.val : Int)

/-- The range test of the DIFF8 branch in the words of the chunk table: the alpha
difference is 0 and the three colour differences lie in `[-1, 2]`. -/
abbrev inDiff8 (prev px : RGBA) : Prop :=
  delta prev.A px.A = 0 ∧
  -1 ≤ delta prev.R px.R ∧ delta prev.R px.R ≤ 2 ∧
  -1 ≤ delta prev.G px.G ∧ delta prev.G px.G ≤ 2 ∧
  -1 ≤ delta prev.B px.B ∧ delta prev.B px.B ≤ 2

/-- The range test of the DIFF16 branch: the alpha difference is 0, the red
difference lies in `[-15, 16]`, the green and blue differences in `[-7, 8]`. -/
abbrev inDiff16 (prev px : RGBA) : Prop :=
  delta prev.A px.A = 0 ∧
  -15 ≤ delta prev.R px.R ∧ delta prev.R px.R ≤ 16 ∧
  -7 ≤ delta prev.G px.G ∧ delta prev.G px.G ≤ 8 ∧
  -7 ≤ delta prev.B px.B ∧ delta prev.B px.B ≤ 8

/-- The range test of the DIFF24 branch: all four differences lie in `[-15, 16]`. -/
abbrev inDiff24 (prev px : RGBA) : Prop :=
  -15 ≤ delta prev.R px.R ∧ delta prev.R px.R ≤ 16 ∧
  -15 ≤ delta prev.G px.G ∧ delta prev.G px.G ≤ 16 ∧
  -15 ≤ delta prev.B px.B ∧ delta prev.B px.B ≤ 16 ∧
  -15 ≤ delta prev.A px.A ∧ delta prev.A px.A ≤ 16

/-- The grid of one pixel equal to the start pixel (0,0,0,255). -/
def startPixelImage : Image :=
  { w := 1, h := 1, At := fun _ _ => Color.rgba startPx }

/-- Every slot of a colour table holds the zero pixel or a pixel whose hash selects
that slot. -/
def SlotsHashed (index : Cache) : Prop :=
  ∀ k, index k = zeroPx ∨ (colorHash (index k)).val % 64 = k

/-- A chunk stream in which a COLOR chunk stores the pixel (1,1,0,0) in slot 0 and
an INDEX chunk then selects the empty slot 5, followed by the padding. -/
def indexOverwriteData : List Byte := [0xfd, 1, 1, 0, 0x05, 0, 0, 0, 0]

/-- A stream without chunks for a grid of two by one pixels: the header with the
length field 4 and the four padding bytes. -/
def exhaustedInput : List Byte :=
  [0x71, 0x6f, 0x69, 0x66, 0, 2, 0, 1, 0, 0, 0, 4, 0, 0, 0, 0]

/-- A stream whose single chunk is a COLOR chunk with all four presence bits set
and no channel bytes before the padding. -/
def truncatedInput : List Byte :=
  [0x71, 0x6f, 0x69, 0x66, 0, 1, 0, 1, 0, 0, 0, 5, 0xff, 0, 0, 0, 0]

/-! ## Header parsing -/

theorem readFull_ok (r : List Byte) (n : Nat) (h : n ≤ r.length) :
    readFull r n = .ok (r.take n, r.drop n) := by
  simp [readFull, h]

theorem Decode_eq_decodeBody (r : List Byte) (h : 12 ≤ r.length) : Decode r = decodeBody r := by
  unfold Decode decodeBody
  rw [readFull_ok r 4 (by omega)]
  simp only []
  rw [readFull_ok (r.drop 4) 2 (by simp; omega)]
  simp only []
  rw [readFull_ok ((r.drop 4).drop 2) 2 (by simp; omega)]
  simp only []
  rw [readFull_ok (((r.drop 4).drop 2).drop 2) 4 (by simp; omega)]
  simp only [List.drop_drop]

theorem readFull_short (r : List Byte) (n : Nat) (h : r.length < n) :
    readFull r n = .error .eof ∨ readFull r n = .error .unexpectedEOF := by
  unfold readFull
  have h1 : ¬ n ≤ r.length := by omega
  rw [if_neg h1]
  by_cases h0 : r.length = 0
  · rw [if_pos h0]; exact Or.inl rfl
  · rw [if_neg h0]; exact Or.inr rfl

theorem Decode_short (r : List Byte) (h : r.length < 12) :
    Decode r = .error .eof ∨ Decode r = .error .unexpectedEOF := by
  unfold Decode
  by_cases h1 : 4 ≤ r.length
  · rw [readFull_ok r 4 h1]
    simp only []
    by_cases h2 : 2 ≤ (r.drop 4).length
    · rw [readFull_ok _ 2 h2]
      simp only []
      by_cases h3 : 2 ≤ ((r.drop 4).drop 2).length
      · rw [readFull_ok _ 2 h3]
        simp only []
        have h4 : (((r.drop 4).drop 2).drop 2).length < 4 := by
          simp only [List.length_drop]; omega
        rcases readFull_short (((r.drop 4).drop 2).drop 2) 4 h4 with e | e <;> rw [e] <;> simp
      · rcases readFull_short ((r.drop 4).drop 2) 2 (by omega) with e | e <;> rw [e] <;> simp
    · rcases readFull_short (r.drop 4) 2 (by omega) with e | e <;> rw [e] <;> simp
  · rcases readFull_short r 4 (by omega) with e | e <;> rw [e] <;> simp

/-! ## The decoder fails only by a slice access out of range -/

theorem PanicOnly.ok {α : Type} (a : α) : PanicOnly (Except.ok a) := by
  intro e h; cases h

theorem readByte_panicOnly (data : List Byte) (p : Nat) : PanicOnly (readByte data p) := by
  intro e h
  unfold readByte at h
  split at h
  · cases h
  · cases h; rfl

theorem PanicOnly.of_match {α β : Type} {x : Except DecodeError α} {f : α → Except DecodeError β}
    (hx : PanicOnly x) (hf : ∀ a, PanicOnly (f a)) :
    PanicOnly (x.bind f) := by
  intro e h
  cases x with
  | error e1 =>
    have : e = e1 := by cases h; rfl
    rw [this]; exact hx e1 rfl
  | ok a => exact hf a e h

theorem readChannel_panicOnly (data : List Byte) (c : Bool) (old : Byte) (p : Nat) :
    PanicOnly (readChannel data c old p) := by
  unfold readChannel
  split
  · exact PanicOnly.of_match (readByte_panicOnly _ _) (fun v => PanicOnly.ok _)
  · exact PanicOnly.ok _

theorem decodeColor_panicOnly (data : List Byte) (b1 : Byte) (px : RGBA) (p : Nat) :
    PanicOnly (decodeColor data b1 px p) := by
  unfold decodeColor
  exact PanicOnly.of_match (readChannel_panicOnly _ _ _ _) (fun a =>
    PanicOnly.of_match (readChannel_panicOnly _ _ _ _) (fun b =>
      PanicOnly.of_match (readChannel_panicOnly _ _ _ _) (fun c =>
        PanicOnly.of_match (readChannel_panicOnly _ _ _ _) (fun d => PanicOnly.ok _))))

theorem decodeTag_panicOnly (data : List Byte) (s : DecState) (b1 : Byte) (p : Nat) :
    PanicOnly (decodeTag data s b1 p) := by
  unfold decodeTag
  simp only []
  split_ifs
  · exact PanicOnly.ok _
  · exact PanicOnly.ok _
  · exact PanicOnly.of_match (readByte_panicOnly _ _) (fun v => PanicOnly.ok _)
  · exact PanicOnly.ok _
  · exact PanicOnly.of_match (readByte_panicOnly _ _) (fun v => PanicOnly.ok _)
  · exact PanicOnly.of_match (readByte_panicOnly _ _) (fun v =>
      PanicOnly.of_match (readByte_panicOnly _ _) (fun v2 => PanicOnly.ok _))
  · exact PanicOnly.of_match (decodeColor_panicOnly _ _ _ _) (fun v => PanicOnly.ok _)
  · exact PanicOnly.ok _

theorem decodeChunk_panicOnly (data : List Byte) (s : DecState) :
    PanicOnly (decodeChunk data s) := by
  unfold decodeChunk
  exact PanicOnly.of_match (readByte_panicOnly _ _) (fun b1 =>
    PanicOnly.of_match (decodeTag_panicOnly _ _ _ _) (fun a => PanicOnly.ok _))

theorem decodeStep_panicOnly (data : List Byte) (chunksLen : Nat) (s : DecState) :
    PanicOnly (decodeStep data chunksLen s) := by
  unfold decodeStep
  split_ifs
  · exact PanicOnly.ok _
  · exact PanicOnly.of_match (decodeChunk_panicOnly _ _) (fun a => PanicOnly.ok _)
  · exact PanicOnly.ok _

theorem decodeLoop_panicOnly (data : List Byte) (chunksLen : Nat) (n : Nat) :
    ∀ s : DecState, PanicOnly (decodeLoop data chunksLen n s) := by
  induction n with
  | zero => intro s; exact PanicOnly.ok _
  | succ n ih =>
    intro s
    unfold decodeLoop
    exact PanicOnly.of_match (decodeStep_panicOnly _ _ _) (fun a => ih a)

/-! ## Tag tests -/

theorem find_eq_head_filter {α : Type} (p : α → Bool) (l : List α) :
    l.find? p = (l.filter p).head? := by
  induction l with
  | nil => rfl
  | cons a t ih =>
    by_cases h : p a = true
    · rw [List.find?_cons_of_pos _ h, List.filter_cons_of_pos h]; rfl
    · rw [List.find?_cons_of_neg _ h, List.filter_cons_of_neg h]; exact ih

theorem tagTests_count : ∀ b : Byte, (tagTests b).count true = 1 := by
  decide!

theorem numberedTests_filter : ∀ b : Byte,
    ∃ k, k < 7 ∧ (numberedTests b).filter (fun t => t.2) = [(k, true)] := by
  decide!

/-! ## Header bytes -/

theorem fromBE_be16 (n : Nat) : fromBE (be16 n) = n % 2 ^ 16 := by
  simp only [fromBE, be16, byte, List.foldl, Nat.shiftRight_eq_div_pow]
  omega

theorem fromBE_be32 (n : Nat) : fromBE (be32 n) = n % 2 ^ 32 := by
  simp only [fromBE, be32, byte, List.foldl, Nat.shiftRight_eq_div_pow]
  omega

theorem be16_length (n : Nat) : (be16 n).length = 2 := rfl

theorem be32_length (n : Nat) : (be32 n).length = 4 := rfl

theorem decodeBody_append (wb hb lb data : List Byte)
    (hw : wb.length = 2) (hh : hb.length = 2) (hl : lb.length = 4) :
    decodeBody (magic ++ wb ++ hb ++ lb ++ data) =
      if fromBE lb ≠ data.length then .error .invalidFileSize
      else
        match decodeLoop data ((fromBE lb + 2 ^ 32 - padding) % 2 ^ 32)
            (fromBE wb * fromBE hb) decInit with
        | .error e => .error e
        | .ok s => .ok { w := fromBE wb, h := fromBE hb, pix := s.pix } := by
  match wb, hw with
  | [w1, w2], _ =>
    match hb, hh with
    | [h1, h2], _ =>
      match lb, hl with
      | [l1, l2, l3, l4], _ =>
        simp [decodeBody, magic]

theorem Decode_Encode (m : Image) (hw : m.w < 2 ^ 16) (hh : m.h < 2 ^ 16)
    (hl : (encodeData m).length < 2 ^ 32) :
    Decode (Encode m) =
      match decodeLoop (encodeData m) (encodeChunks m).length (m.w * m.h) decInit with
      | .error e => .error e
      | .ok s => .ok { w := m.w, h := m.h, pix := s.pix } := by
  have hlen : 12 ≤ (Encode m).length := by
    simp [Encode, magic, be16, be32]
  rw [Decode_eq_decodeBody _ hlen, Encode]
  rw [decodeBody_append _ _ _ _ (be16_length _) (be16_length _) (be32_length _)]
  rw [fromBE_be16, fromBE_be16, fromBE_be32, Nat.mod_eq_of_lt hw, Nat.mod_eq_of_lt hh,
    Nat.mod_eq_of_lt hl]
  have hc : ((encodeData m).length + 2 ^ 32 - padding) % 2 ^ 32 = (encodeChunks m).length := by
    have : (encodeData m).length = (encodeChunks m).length + 4 := by
      simp [encodeData, padding]
    rw [this] at hl ⊢
    simp only [padding]
    omega
  rw [hc, if_neg (fun h => h rfl)]

/-! ## The two pixel loops as one pass over the pixel sequence -/

theorem encEnd_append (s : EncState) (l1 l2 : List (RGBA × Bool)) :
    encEnd s (l1 ++ l2) = encEnd (encEnd s l1) l2 := by
  induction l1 generalizing s with
  | nil => rfl
  | cons t tl ih =>
    rw [List.cons_append]
    simp only [encEnd]
    exact ih _

theorem encOut_append (s : EncState) (l1 l2 : List (RGBA × Bool)) :
    encOut s (l1 ++ l2) = encOut s l1 ++ encOut (encEnd s l1) l2 := by
  induction l1 generalizing s with
  | nil => rfl
  | cons t tl ih =>
    rw [List.cons_append]
    simp only [encOut, encEnd]
    rw [ih, List.append_assoc]

theorem foldl_encodeStep (f : Nat → RGBA) (g : Nat → Bool) (xs : List Nat)
    (acc : EncState × List Byte) :
    xs.foldl (fun acc x =>
        let r := encodeStep acc.1 (f x) (g x)
        (r.1, acc.2 ++ r.2)) acc
      = (encEnd acc.1 (xs.map fun x => (f x, g x)),
         acc.2 ++ encOut acc.1 (xs.map fun x => (f x, g x))) := by
  induction xs generalizing acc with
  | nil => simp [encEnd, encOut]
  | cons x tl ih =>
    simp only [List.foldl_cons, List.map_cons, encEnd, encOut]
    rw [ih]
    simp only [List.append_assoc]

theorem last_flag_iff (w h x y : Nat) (hx : x < w) (hy : y < h) :
    (x = w - 1 ∧ y = h - 1) ↔ y * w + x + 1 = h * w := by
  obtain ⟨d, rfl⟩ := Nat.exists_eq_add_of_lt hy
  constructor
  · rintro ⟨h1, h2⟩
    have hd : d = 0 := by omega
    subst hd
    have : (y + 0 + 1) * w = y * w + w := by ring
    rw [this]; omega
  · intro e
    have e2 : (y + d + 1) * w = y * w + d * w + w := by ring
    rw [e2] at e
    have hd : d = 0 := by
      by_contra hne
      have : w ≤ d * w := Nat.le_mul_of_pos_left w (Nat.pos_of_ne_zero hne)
      omega
    subst hd
    omega

theorem encodeRow_eq (m : Image) (y : Nat) (hy : y < m.h) (acc : EncState × List Byte) :
    encodeRow m y acc =
      (encEnd acc.1 ((List.range m.w).map fun x =>
          (rgbaColor (m.At ((y * m.w + x) % m.w) ((y * m.w + x) / m.w)),
            decide (y * m.w + x + 1 = m.h * m.w))),
       acc.2 ++ encOut acc.1 ((List.range m.w).map fun x =>
          (rgbaColor (m.At ((y * m.w + x) % m.w) ((y * m.w + x) / m.w)),
            decide (y * m.w + x + 1 = m.h * m.w)))) := by
  unfold encodeRow
  rw [foldl_encodeStep (fun x => rgbaColor (m.At x y)) (fun x => (x == m.w - 1 && y == m.h - 1))]
  have hmap : ((List.range m.w).map fun x =>
        (rgbaColor (m.At x y), (x == m.w - 1 && y == m.h - 1))) =
      ((List.range m.w).map fun x =>
          (rgbaColor (m.At ((y * m.w + x) % m.w) ((y * m.w + x) / m.w)),
            decide (y * m.w + x + 1 = m.h * m.w))) := by
    apply List.map_congr_left
    intro x hx
    have hx : x < m.w := List.mem_range.mp hx
    have h1 : (y * m.w + x) % m.w = x := by
      rw [Nat.mul_comm, Nat.mul_add_mod, Nat.mod_eq_of_lt hx]
    have h2 : (y * m.w + x) / m.w = y := by
      rw [Nat.mul_comm, Nat.mul_add_div (by omega), Nat.div_eq_of_lt hx, Nat.add_zero]
    rw [h1, h2]
    congr 1
    have := last_flag_iff m.w m.h x y hx hy
    by_cases hc : y * m.w + x + 1 = m.h * m.w
    · have h3 := this.mpr hc
      simp [hc, h3.1.symm, h3.2.symm]
    · have h3 : ¬ (x = m.w - 1 ∧ y = m.h - 1) := fun h => hc (this.mp h)
      simp only [hc, decide_False, Bool.and_eq_false_iff, beq_eq_false_iff_ne, ne_eq]
      by_cases hxw : x = m.w - 1
      · right; exact fun h => h3 ⟨hxw, h⟩
      · left; exact hxw
  rw [hmap]

theorem foldl_encodeRow (m : Image) (H : Nat) (hH : H ≤ m.h) (acc : EncState × List Byte) :
    (List.range H).foldl (fun acc y => encodeRow m y acc) acc =
      (encEnd acc.1 ((List.range (H * m.w)).map fun k =>
          (rgbaColor (m.At (k % m.w) (k / m.w)), decide (k + 1 = m.h * m.w))),
       acc.2 ++ encOut acc.1 ((List.range (H * m.w)).map fun k =>
          (rgbaColor (m.At (k % m.w) (k / m.w)), decide (k + 1 = m.h * m.w)))) := by
  induction H with
  | zero => simp [encEnd, encOut]
  | succ H ih =>
    rw [List.range_succ, List.foldl_append, ih (by omega)]
    simp only [List.foldl_cons, List.foldl_nil]
    rw [encodeRow_eq m H (by omega)]
    have hr : (H + 1) * m.w = H * m.w + m.w := by ring
    rw [hr, List.range_add, List.map_append, encEnd_append, encOut_append, List.map_map]
    simp only [List.append_assoc, Function.comp_def]

theorem encodePixels_eq (m : Image) :
    encodePixels m = (encEnd encInit (pixelSeq m), encOut encInit (pixelSeq m)) := by
  unfold encodePixels pixelSeq
  rw [foldl_encodeRow m m.h (Nat.le_refl _)]
  simp

theorem encodeChunks_eq (m : Image) : encodeChunks m = encOut encInit (pixelSeq m) := by
  unfold encodeChunks
  rw [encodePixels_eq]

theorem pixelSeq_length (m : Image) : (pixelSeq m).length = m.h * m.w := by
  simp [pixelSeq]

theorem lastFlagged_range (f : Nat → RGBA) (n : Nat) :
    ∀ len s, s + len = n →
      LastFlagged ((List.range' s len).map fun k => (f k, decide (k + 1 = n))) := by
  intro len
  induction len with
  | zero => intro s _; exact True.intro
  | succ len ih =>
    intro s hs
    rw [List.range'_succ, List.map_cons]
    refine ⟨?_, ih (s + 1) (by omega)⟩
    simp only [decide_eq_true_eq, List.map_eq_nil_iff, List.range'_eq_nil]
    omega

theorem pixelSeq_lastFlagged (m : Image) : LastFlagged (pixelSeq m) := by
  unfold pixelSeq
  rw [List.range_eq_range']
  exact lastFlagged_range _ _ _ 0 (by omega)

/-! ## Runs of equal pixels -/

theorem encodeStep_same (s : EncState) (last : Bool) :
    encodeStep s s.pxPrev last =
      if s.run + 1 = 0x2020 ∨ last = true then
        ({ index := s.index, run := 0, pxPrev := s.pxPrev }, runChunk (s.run + 1))
      else
        ({ index := s.index, run := s.run + 1, pxPrev := s.pxPrev }, []) := by
  unfold encodeStep
  by_cases h : s.run = 8223 ∨ last = true
  · simp [h]
  · simp [h]

theorem enc_run (k : Nat) : ∀ s : EncState, s.run + k < 0x2020 →
    encEnd s (List.replicate k (s.pxPrev, false)) =
        { index := s.index, run := s.run + k, pxPrev := s.pxPrev } ∧
      encOut s (List.replicate k (s.pxPrev, false)) = [] := by
  induction k with
  | zero => intro s _; exact ⟨rfl, rfl⟩
  | succ k ih =>
    intro s hs
    rw [List.replicate_succ]
    simp only [encEnd, encOut]
    rw [encodeStep_same]
    have hno : ¬ (s.run + 1 = 0x2020 ∨ false = true) := by
      simp only [Bool.false_eq_true, or_false]; omega
    rw [if_neg hno]
    have := ih { index := s.index, run := s.run + 1, pxPrev := s.pxPrev } (by simp only; omega)
    simp only at this
    rw [this.1, this.2]
    refine ⟨?_, rfl⟩
    congr 1
    omega

theorem map_range_flag (c : RGBA) (n : Nat) :
    ((List.range (n + 1)).map fun k => (c, decide (k + 1 = n + 1))) =
      List.replicate n (c, false) ++ [(c, true)] := by
  rw [List.range_succ, List.map_append]
  congr 1
  · rw [List.eq_replicate_iff]
    refine ⟨by simp, ?_⟩
    intro b hb
    rw [List.mem_map] at hb
    obtain ⟨k, hk, rfl⟩ := hb
    have : k < n := List.mem_range.mp hk
    simp; omega
  · simp

theorem pixelSeq_uniform (m : Image) (c : RGBA) (n : Nat) (hn : m.h * m.w = n + 1)
    (hpx : ∀ x y, x < m.w → y < m.h → rgbaColor (m.At x y) = c) :
    pixelSeq m = List.replicate n (c, false) ++ [(c, true)] := by
  rw [← map_range_flag]
  unfold pixelSeq
  rw [hn]
  apply List.map_congr_left
  intro k hk
  have hk : k < n + 1 := List.mem_range.mp hk
  have hw : 0 < m.w := by
    rcases Nat.eq_zero_or_pos m.w with h0 | h0
    · rw [h0] at hn; simp at hn
    · exact h0
  have h1 : k % m.w < m.w := Nat.mod_lt _ hw
  have h2 : k / m.w < m.h := by
    rw [Nat.div_lt_iff_lt_mul hw]; omega
  rw [hpx _ _ h1 h2]

/-! ## The framing written by `Encode` -/

theorem be16_of_lt (n : Nat) (h : n < 2 ^ 16) : be16 n = [byte (n >>> 8), byte n] := by
  simp only [be16, Nat.mod_eq_of_lt h]

theorem encodeData_length (m : Image) : (encodeData m).length = (encodeChunks m).length + 4 := by
  simp [encodeData, padding]

theorem Encode_length (m : Image) : (Encode m).length = 12 + (encodeData m).length := by
  simp only [Encode, List.length_append, be16_length, be32_length, magic, List.length_cons,
    List.length_nil]

theorem pixelSeq_empty (m : Image) (h0 : m.w = 0 ∨ m.h = 0) : pixelSeq m = [] := by
  have : m.h * m.w = 0 := by
    rcases h0 with h | h <;> simp [h]
  simp [pixelSeq, this]

/-! ## Grids of one colour -/

theorem enc_run_last (n : Nat) (s : EncState) (hs : s.run + n + 1 ≤ 0x2020) :
    encOut s (List.replicate n (s.pxPrev, false) ++ [(s.pxPrev, true)]) =
        runChunk (s.run + n + 1) ∧
      encEnd s (List.replicate n (s.pxPrev, false) ++ [(s.pxPrev, true)]) =
        { index := s.index, run := 0, pxPrev := s.pxPrev } := by
  have hr := enc_run n s (by omega)
  rw [encOut_append, encEnd_append, hr.1, hr.2]
  simp only [encOut, encEnd, List.nil_append, List.append_nil]
  rw [encodeStep_same]
  simp

theorem encodeChunks_uniform_start (m : Image) (n : Nat) (hn : m.h * m.w = n + 1)
    (hle : n + 1 ≤ 0x2020)
    (hpx : ∀ x y, x < m.w → y < m.h → rgbaColor (m.At x y) = startPx) :
    encodeChunks m = runChunk (n + 1) := by
  rw [encodeChunks_eq, pixelSeq_uniform m startPx n hn hpx]
  have := (enc_run_last n encInit (by simp only [encInit]; omega)).1
  simp only [encInit, Nat.zero_add] at this
  exact this

theorem run8_byte : ∀ k < 32, (byte (qoiRun8 ||| k)).val = 0x40 ||| k := by
  decide

theorem run16_byte : ∀ k < 32, (byte (qoiRun16 ||| k)).val = 0x60 ||| k := by
  decide

theorem byte_val_and (n : Nat) : (byte n).val = n &&& 0xff := by
  have := Nat.and_pow_two_sub_one_eq_mod n 8
  simp only [byte]
  rw [show (0xff : Nat) = 2 ^ 8 - 1 from rfl, this]

theorem encOut_cons (s : EncState) (t : RGBA × Bool) (tl : List (RGBA × Bool)) :
    encOut s (t :: tl) = (encodeStep s t.1 t.2).2 ++ encOut (encodeStep s t.1 t.2).1 tl := rfl

theorem encodeStep_run_lt (s : EncState) (px : RGBA) (last : Bool) (h : s.run < 0x2020) :
    (encodeStep s px last).1.run < 0x2020 := by
  unfold encodeStep
  simp only []
  split_ifs <;> simp_all
  omega

theorem encEnd_run_lt (l : List (RGBA × Bool)) : ∀ s : EncState, s.run < 0x2020 →
    (encEnd s l).run < 0x2020 := by
  induction l with
  | nil => intro s h; exact h
  | cons t tl ih =>
    intro s h
    simp only [encEnd]
    exact ih _ (encodeStep_run_lt s t.1 t.2 h)

theorem encodeStep_first (c : RGBA) (hc : c ≠ startPx) :
    encodeStep encInit c false =
      ({ index := if c = zeroPx then zeroCache else setSlot zeroCache ((colorHash c).val % 64) c,
         run := 0, pxPrev := c },
       if c = zeroPx then [0x00] else diffChunk startPx c) := by
  unfold encodeStep
  simp only [encInit, zeroCache]
  by_cases hz : c = zeroPx
  · subst hz
    simp [hc]
    decide
  · have hz2 : ¬ (zeroPx = c) := fun h => hz h.symm
    simp [hc, hz, hz2]

/-! ## Bit-level facts about the chunk bytes -/

theorem index_bits : ∀ k < 64,
    (byte (qoiIndex ||| k)).val &&& qoiMask2 = qoiIndex ∧
    (byte (qoiIndex ||| k)).val ^^^ qoiIndex = k := by
  decide!

theorem run8_bits : ∀ k < 32,
    (byte (qoiRun8 ||| k)).val &&& qoiMask2 ≠ qoiIndex ∧
    (byte (qoiRun8 ||| k)).val &&& qoiMask3 = qoiRun8 ∧
    (byte (qoiRun8 ||| k)).val &&& 0x1f = k := by
  decide!

theorem run16_bits : ∀ k < 32,
    (byte (qoiRun16 ||| k)).val &&& qoiMask2 ≠ qoiIndex ∧
    (byte (qoiRun16 ||| k)).val &&& qoiMask3 ≠ qoiRun8 ∧
    (byte (qoiRun16 ||| k)).val &&& qoiMask3 = qoiRun16 ∧
    (byte (qoiRun16 ||| k)).val &&& 0x1f = k := by
  decide!

theorem run16_value (r : Nat) : (((r >>> 8) <<< 8) ||| (byte r).val) = r := by
  simp only [byte, Nat.shiftRight_eq_div_pow, Nat.shiftLeft_eq]
  have h := Nat.mul_add_lt_is_or (Nat.mod_lt r (by decide : 0 < 2 ^ 8)) (r / 2 ^ 8)
  rw [Nat.mul_comm (r / 2 ^ 8) (2 ^ 8), ← h]
  omega

set_option synthInstance.maxSize 4096 in
set_option synthInstance.maxHeartbeats 400000 in
theorem diff8_bits : ∀ fr < 4, ∀ fg < 4, ∀ fb < 4,
    (byte (qoiDiff8 ||| (fr <<< 4) ||| (fg <<< 2) ||| fb)).val &&& qoiMask2 ≠ qoiIndex ∧
    (byte (qoiDiff8 ||| (fr <<< 4) ||| (fg <<< 2) ||| fb)).val &&& qoiMask3 ≠ qoiRun8 ∧
    (byte (qoiDiff8 ||| (fr <<< 4) ||| (fg <<< 2) ||| fb)).val &&& qoiMask3 ≠ qoiRun16 ∧
    (byte (qoiDiff8 ||| (fr <<< 4) ||| (fg <<< 2) ||| fb)).val &&& qoiMask2 = qoiDiff8 ∧
    ((byte (qoiDiff8 ||| (fr <<< 4) ||| (fg <<< 2) ||| fb)).val >>> 4) &&& 0x03 = fr ∧
    ((byte (qoiDiff8 ||| (fr <<< 4) ||| (fg <<< 2) ||| fb)).val >>> 2) &&& 0x03 = fg ∧
    (byte (qoiDiff8 ||| (fr <<< 4) ||| (fg <<< 2) ||| fb)).val &&& 0x03 = fb := by
  decide!

theorem diff16_bits1 : ∀ fr < 32,
    (byte (qoiDiff16 ||| fr)).val &&& qoiMask2 ≠ qoiIndex ∧
    (byte (qoiDiff16 ||| fr)).val &&& qoiMask3 ≠ qoiRun8 ∧
    (byte (qoiDiff16 ||| fr)).val &&& qoiMask3 ≠ qoiRun16 ∧
    (byte (qoiDiff16 ||| fr)).val &&& qoiMask2 ≠ qoiDiff8 ∧
    (byte (qoiDiff16 ||| fr)).val &&& qoiMask3 = qoiDiff16 ∧
    (byte (qoiDiff16 ||| fr)).val &&& 0x1f = fr := by
  decide!

set_option synthInstance.maxSize 4096 in
set_option synthInstance.maxHeartbeats 400000 in
theorem diff16_bits2 : ∀ fg < 16, ∀ fb < 16,
    (byte ((fg <<< 4) ||| fb)).val >>> 4 = fg ∧
    (byte ((fg <<< 4) ||| fb)).val &&& 0x0f = fb := by
  decide!

theorem diff24_bits1 : ∀ k < 16,
    (byte (qoiDiff24 ||| k)).val &&& qoiMask2 ≠ qoiIndex ∧
    (byte (qoiDiff24 ||| k)).val &&& qoiMask3 ≠ qoiRun8 ∧
    (byte (qoiDiff24 ||| k)).val &&& qoiMask3 ≠ qoiRun16 ∧
    (byte (qoiDiff24 ||| k)).val &&& qoiMask2 ≠ qoiDiff8 ∧
    (byte (qoiDiff24 ||| k)).val &&& qoiMask3 ≠ qoiDiff16 ∧
    (byte (qoiDiff24 ||| k)).val &&& qoiMask4 = qoiDiff24 ∧
    (byte (qoiDiff24 ||| k)).val &&& 0x0f = k := by
  decide!

set_option synthInstance.maxSize 4096 in
set_option synthInstance.maxHeartbeats 400000 in
theorem diff24_bits2 : ∀ fr < 32, ∀ fg < 32, ∀ bhi < 4,
    (((fr >>> 1) <<< 1) ||| ((byte ((fr <<< 7) ||| (fg <<< 2) ||| bhi)).val >>> 7)) = fr ∧
    ((byte ((fr <<< 7) ||| (fg <<< 2) ||| bhi)).val &&& 0x7c) >>> 2 = fg ∧
    (byte ((fr <<< 7) ||| (fg <<< 2) ||| bhi)).val &&& 0x03 = bhi := by
  decide!

set_option synthInstance.maxSize 4096 in
set_option synthInstance.maxHeartbeats 400000 in
theorem diff24_bits3 : ∀ fb < 32, ∀ fa < 32,
    ((((fb >>> 3) <<< 3) ||| (((byte ((fb <<< 5) ||| fa)).val &&& 0xe0) >>> 5)) = fb) ∧
    (byte ((fb <<< 5) ||| fa)).val &&& 0x1f = fa := by
  decide!

/-! ## Reading the bytes of one chunk -/

theorem readByte_append (pre suf : List Byte) (i : Nat) :
    readByte (pre ++ suf) (pre.length + i) = readByte suf i := by
  unfold readByte
  rw [List.getElem?_append_right (by omega)]
  simp

theorem readByte_zero (b : Byte) (tl : List Byte) : readByte (b :: tl) 0 = .ok b := by
  simp [readByte]

theorem readByte_succ (b : Byte) (tl : List Byte) (i : Nat) :
    readByte (b :: tl) (i + 1) = readByte tl i := by
  unfold readByte
  simp

theorem readByte_at0 (pre : List Byte) (b : Byte) (tl : List Byte) :
    readByte (pre ++ b :: tl) pre.length = .ok b := by
  have := readByte_append pre (b :: tl) 0
  rw [Nat.add_zero] at this
  rw [this, readByte_zero]

theorem readByte_at1 (pre : List Byte) (b0 b : Byte) (tl : List Byte) :
    readByte (pre ++ b0 :: b :: tl) (pre.length + 1) = .ok b := by
  rw [readByte_append, readByte_succ, readByte_zero]

theorem readByte_at2 (pre : List Byte) (b0 b1 b : Byte) (tl : List Byte) :
    readByte (pre ++ b0 :: b1 :: b :: tl) (pre.length + 2) = .ok b := by
  rw [readByte_append, readByte_succ, readByte_succ, readByte_zero]

/-! ## Decoding the chunks the encoder writes -/

theorem decodeTag_index (data : List Byte) (s : DecState) (p k : Nat) (hk : k < 64) :
    decodeTag data s (byte (qoiIndex ||| k)) p = .ok (s.index k, s.run, p) := by
  have h := index_bits k hk
  unfold decodeTag
  rw [if_pos h.1, h.2]

theorem decodeTag_run8 (data : List Byte) (s : DecState) (p k : Nat) (hk : k < 32) :
    decodeTag data s (byte (qoiRun8 ||| k)) p = .ok (s.px, k, p) := by
  have h := run8_bits k hk
  unfold decodeTag
  rw [if_neg h.1, if_pos h.2.1, h.2.2]

theorem decodeTag_run16 (data : List Byte) (s : DecState) (p k : Nat) (b2 : Byte) (hk : k < 32)
    (hb : readByte data p = .ok b2) :
    decodeTag data s (byte (qoiRun16 ||| k)) p
      = .ok (s.px, ((k <<< 8) ||| b2.val) + 32, p + 1) := by
  have h := run16_bits k hk
  unfold decodeTag
  rw [if_neg h.1, if_neg h.2.1, if_pos h.2.2.1, h.2.2.2, hb]
  rfl

theorem decodeTag_diff8 (data : List Byte) (s : DecState) (p fr fg fb : Nat)
    (hr : fr < 4) (hg : fg < 4) (hb : fb < 4) :
    decodeTag data s (byte (qoiDiff8 ||| (fr <<< 4) ||| (fg <<< 2) ||| fb)) p
      = .ok ({ R := add8 s.px.R (sub8 (byte fr) 1), G := add8 s.px.G (sub8 (byte fg) 1),
               B := add8 s.px.B (sub8 (byte fb) 1), A := s.px.A }, s.run, p) := by
  obtain ⟨h1, h2, h3, h4, h5, h6, h7⟩ := diff8_bits fr hr fg hg fb hb
  unfold decodeTag
  rw [if_neg h1, if_neg h2, if_neg h3, if_pos h4, h5, h6, h7]

theorem decodeTag_diff16 (data : List Byte) (s : DecState) (p fr fg fb : Nat)
    (hr : fr < 32) (hg : fg < 16) (hb : fb < 16)
    (hb2 : readByte data p = .ok (byte ((fg <<< 4) ||| fb))) :
    decodeTag data s (byte (qoiDiff16 ||| fr)) p
      = .ok ({ R := add8 s.px.R (sub8 (byte fr) 15), G := add8 s.px.G (sub8 (byte fg) 7),
               B := add8 s.px.B (sub8 (byte fb) 7), A := s.px.A }, s.run, p + 1) := by
  obtain ⟨h1, h2, h3, h4, h5, h6⟩ := diff16_bits1 fr hr
  obtain ⟨h7, h8⟩ := diff16_bits2 fg hg fb hb
  unfold decodeTag
  rw [if_neg h1, if_neg h2, if_neg h3, if_neg h4, if_pos h5, h6, hb2]
  simp only [Except.bind, h7, h8]

theorem decodeTag_diff24 (data : List Byte) (s : DecState) (p fr fg fb fa : Nat)
    (hr : fr < 32) (hg : fg < 32) (hb : fb < 32) (ha : fa < 32)
    (hb2 : readByte data p = .ok (byte ((fr <<< 7) ||| (fg <<< 2) ||| (fb >>> 3))))
    (hb3 : readByte data (p + 1) = .ok (byte ((fb <<< 5) ||| fa))) :
    decodeTag data s (byte (qoiDiff24 ||| (fr >>> 1))) p
      = .ok ({ R := add8 s.px.R (sub8 (byte fr) 15), G := add8 s.px.G (sub8 (byte fg) 15),
               B := add8 s.px.B (sub8 (byte fb) 15), A := add8 s.px.A (sub8 (byte fa) 15) },
             s.run, p + 2) := by
  have hr1 : fr >>> 1 < 16 := by rw [Nat.shiftRight_eq_div_pow]; omega
  have hb1 : fb >>> 3 < 4 := by rw [Nat.shiftRight_eq_div_pow]; omega
  obtain ⟨h1, h2, h3, h4, h5, h6, h7⟩ := diff24_bits1 (fr >>> 1) hr1
  obtain ⟨h8, h9, h10⟩ := diff24_bits2 fr hr fg hg (fb >>> 3) hb1
  obtain ⟨h11, h12⟩ := diff24_bits3 fb hb fa ha
  unfold decodeTag
  rw [if_neg h1, if_neg h2, if_neg h3, if_neg h4, if_neg h5, if_pos h6, h7, hb2, hb3]
  simp only [Except.bind, h8, h9, h10, h11, h12]

/-! ## Literal chunks -/

theorem add8_sub8 (a b cb : Byte) (c : Int) (hcb : (cb.val : Int) = c)
    (h0 : 0 ≤ (b.val : Int) - (a.val : Int) + c) (h1 : (b.val : Int) - (a.val : Int) + c < 256) :
    add8 a (sub8 (byte ((b.val : Int) - (a.val : Int) + c).toNat) cb) = b := by
  apply Fin.ext
  simp only [add8, sub8, byte]
  omega

theorem byte_eq_of_sub_eq_zero (a b : Byte) (h : (b.val : Int) - (a.val : Int) = 0) : a = b := by
  apply Fin.ext
  omega

theorem color_bits_flags : ∀ pr pg pb pa : Bool,
    (byte (qoiColor ||| (if pr then 8 else 0) ||| (if pg then 4 else 0) |||
        (if pb then 2 else 0) ||| (if pa then 1 else 0))).val &&& qoiMask2 ≠ qoiIndex ∧
    (byte (qoiColor ||| (if pr then 8 else 0) ||| (if pg then 4 else 0) |||
        (if pb then 2 else 0) ||| (if pa then 1 else 0))).val &&& qoiMask3 ≠ qoiRun8 ∧
    (byte (qoiColor ||| (if pr then 8 else 0) ||| (if pg then 4 else 0) |||
        (if pb then 2 else 0) ||| (if pa then 1 else 0))).val &&& qoiMask3 ≠ qoiRun16 ∧
    (byte (qoiColor ||| (if pr then 8 else 0) ||| (if pg then 4 else 0) |||
        (if pb then 2 else 0) ||| (if pa then 1 else 0))).val &&& qoiMask2 ≠ qoiDiff8 ∧
    (byte (qoiColor ||| (if pr then 8 else 0) ||| (if pg then 4 else 0) |||
        (if pb then 2 else 0) ||| (if pa then 1 else 0))).val &&& qoiMask3 ≠ qoiDiff16 ∧
    (byte (qoiColor ||| (if pr then 8 else 0) ||| (if pg then 4 else 0) |||
        (if pb then 2 else 0) ||| (if pa then 1 else 0))).val &&& qoiMask4 ≠ qoiDiff24 ∧
    (byte (qoiColor ||| (if pr then 8 else 0) ||| (if pg then 4 else 0) |||
        (if pb then 2 else 0) ||| (if pa then 1 else 0))).val &&& qoiMask4 = qoiColor ∧
    decide ((byte (qoiColor ||| (if pr then 8 else 0) ||| (if pg then 4 else 0) |||
        (if pb then 2 else 0) ||| (if pa then 1 else 0))).val &&& 8 ≠ 0) = pr ∧
    decide ((byte (qoiColor ||| (if pr then 8 else 0) ||| (if pg then 4 else 0) |||
        (if pb then 2 else 0) ||| (if pa then 1 else 0))).val &&& 4 ≠ 0) = pg ∧
    decide ((byte (qoiColor ||| (if pr then 8 else 0) ||| (if pg then 4 else 0) |||
        (if pb then 2 else 0) ||| (if pa then 1 else 0))).val &&& 2 ≠ 0) = pb ∧
    decide ((byte (qoiColor ||| (if pr then 8 else 0) ||| (if pg then 4 else 0) |||
        (if pb then 2 else 0) ||| (if pa then 1 else 0))).val &&& 1 ≠ 0) = pa := by
  decide!

/-- The literal bytes that follow the tag byte of a COLOR chunk. -/
theorem decodeTag_color (data : List Byte) (s : DecState) (p : Nat) (pr pg pb pa : Bool) :
    decodeTag data s (byte (qoiColor ||| (if pr then 8 else 0) ||| (if pg then 4 else 0) |||
        (if pb then 2 else 0) ||| (if pa then 1 else 0))) p =
      (readChannel data pr s.px.R p).bind fun r =>
      (readChannel data pg s.px.G r.2).bind fun g =>
      (readChannel data pb s.px.B g.2).bind fun b =>
      (readChannel data pa s.px.A b.2).bind fun a =>
      .ok ({ R := r.1, G := g.1, B := b.1, A := a.1 }, s.run, a.2) := by
  obtain ⟨h1, h2, h3, h4, h5, h6, h7, h8, h9, h10, h11⟩ := color_bits_flags pr pg pb pa
  unfold decodeTag
  rw [if_neg h1, if_neg h2, if_neg h3, if_neg h4, if_neg h5, if_neg h6, if_pos h7]
  unfold decodeColor
  rw [h8, h9, h10, h11]
  cases readChannel data pr s.px.R p with
  | error e => rfl
  | ok r =>
    simp only [Except.bind]
    cases readChannel data pg s.px.G r.2 with
    | error e => rfl
    | ok g =>
      simp only [Except.bind]
      cases readChannel data pb s.px.B g.2 with
      | error e => rfl
      | ok b =>
        simp only [Except.bind]
        cases readChannel data pa s.px.A b.2 with
        | error e => rfl
        | ok a => rfl

theorem readChannel_true (data : List Byte) (old v : Byte) (p : Nat)
    (h : readByte data p = .ok v) :
    readChannel data true old p = .ok (v, p + 1) := by
  unfold readChannel
  rw [if_pos rfl, h]
  rfl

theorem cond3_eq (v : Int) (a b : Nat) :
    cond3 v a b = if decide (v ≠ 0) = true then a else b := by
  unfold cond3
  by_cases h : v ≠ 0 <;> simp [h]

theorem readChannel_spec (data pre tl : List Byte) (c : Prop) [Decidable c] (v old : Byte)
    (p : Nat) (hd : data = pre ++ ((if c then [v] else []) ++ tl)) (hp : p = pre.length) :
    readChannel data (decide c) old p =
      .ok (if c then v else old, p + (if c then [v] else []).length) := by
  subst hd hp
  by_cases h : c
  · simp only [h, decide_True, if_true, List.cons_append, List.nil_append, List.length_cons,
      List.length_nil]
    exact readChannel_true _ _ _ _ (readByte_at0 _ _ _)
  · simp only [h, decide_False, if_false, List.nil_append, List.length_nil, Nat.add_zero]
    rfl

theorem decodeTag_colorChunk (pre post : List Byte) (s : DecState) (px : RGBA) :
    decodeTag
        (pre ++ ([byte (qoiColor ||| cond3 ((px.R.val : Int) - (s.px.R.val : Int)) 8 0 |||
              cond3 ((px.G.val : Int) - (s.px.G.val : Int)) 4 0 |||
              cond3 ((px.B.val : Int) - (s.px.B.val : Int)) 2 0 |||
              cond3 ((px.A.val : Int) - (s.px.A.val : Int)) 1 0)]
          ++ (if (px.R.val : Int) - (s.px.R.val : Int) ≠ 0 then [px.R] else [])
          ++ (if (px.G.val : Int) - (s.px.G.val : Int) ≠ 0 then [px.G] else [])
          ++ (if (px.B.val : Int) - (s.px.B.val : Int) ≠ 0 then [px.B] else [])
          ++ (if (px.A.val : Int) - (s.px.A.val : Int) ≠ 0 then [px.A] else []) ++ post))
        s
        (byte (qoiColor ||| cond3 ((px.R.val : Int) - (s.px.R.val : Int)) 8 0 |||
              cond3 ((px.G.val : Int) - (s.px.G.val : Int)) 4 0 |||
              cond3 ((px.B.val : Int) - (s.px.B.val : Int)) 2 0 |||
              cond3 ((px.A.val : Int) - (s.px.A.val : Int)) 1 0))
        (pre.length + 1) =
      .ok (px, s.run, pre.length +
        ([byte (qoiColor ||| cond3 ((px.R.val : Int) - (s.px.R.val : Int)) 8 0 |||
              cond3 ((px.G.val : Int) - (s.px.G.val : Int)) 4 0 |||
              cond3 ((px.B.val : Int) - (s.px.B.val : Int)) 2 0 |||
              cond3 ((px.A.val : Int) - (s.px.A.val : Int)) 1 0)]
          ++ (if (px.R.val : Int) - (s.px.R.val : Int) ≠ 0 then [px.R] else [])
          ++ (if (px.G.val : Int) - (s.px.G.val : Int) ≠ 0 then [px.G] else [])
          ++ (if (px.B.val : Int) - (s.px.B.val : Int) ≠ 0 then [px.B] else [])
          ++ (if (px.A.val : Int) - (s.px.A.val : Int) ≠ 0 then [px.A] else [])).length) := by
  generalize hvr : (px.R.val : Int) - (s.px.R.val : Int) = vr
  generalize hvg : (px.G.val : Int) - (s.px.G.val : Int) = vg
  generalize hvb : (px.B.val : Int) - (s.px.B.val : Int) = vb
  generalize hva : (px.A.val : Int) - (s.px.A.val : Int) = va
  rw [cond3_eq, cond3_eq, cond3_eq, cond3_eq, decodeTag_color]
  generalize hb1 : byte (qoiColor ||| (if decide (vr ≠ 0) = true then 8 else 0) |||
      (if decide (vg ≠ 0) = true then 4 else 0) ||| (if decide (vb ≠ 0) = true then 2 else 0) |||
      (if decide (va ≠ 0) = true then 1 else 0)) = b1
  rw [readChannel_spec _ (pre ++ [b1])
      ((if vg ≠ 0 then [px.G] else []) ++ (if vb ≠ 0 then [px.B] else [])
        ++ (if va ≠ 0 then [px.A] else []) ++ post) (vr ≠ 0) px.R s.px.R (pre.length + 1)
      (by simp only [List.append_assoc]) (by simp)]
  simp only [Except.bind]
  rw [readChannel_spec _ (pre ++ [b1] ++ (if vr ≠ 0 then [px.R] else []))
      ((if vb ≠ 0 then [px.B] else []) ++ (if va ≠ 0 then [px.A] else []) ++ post)
      (vg ≠ 0) px.G s.px.G _
      (by simp only [List.append_assoc]) (by
        simp only [List.length_append, List.length_cons, List.length_nil])]
  simp only [Except.bind]
  rw [readChannel_spec _ (pre ++ [b1] ++ (if vr ≠ 0 then [px.R] else [])
        ++ (if vg ≠ 0 then [px.G] else []))
      ((if va ≠ 0 then [px.A] else []) ++ post)
      (vb ≠ 0) px.B s.px.B _
      (by simp only [List.append_assoc]) (by
        simp only [List.length_append, List.length_cons, List.length_nil])]
  simp only [Except.bind]
  rw [readChannel_spec _ (pre ++ [b1] ++ (if vr ≠ 0 then [px.R] else [])
        ++ (if vg ≠ 0 then [px.G] else []) ++ (if vb ≠ 0 then [px.B] else []))
      post
      (va ≠ 0) px.A s.px.A _
      (by simp only [List.append_assoc]) (by
        simp only [List.length_append, List.length_cons, List.length_nil])]
  simp only [Except.bind]
  have eR : (if vr ≠ 0 then px.R else s.px.R) = px.R := by
    split_ifs with h
    · rfl
    · exact byte_eq_of_sub_eq_zero _ _ (by rw [hvr]; exact not_not.mp h)
  have eG : (if vg ≠ 0 then px.G else s.px.G) = px.G := by
    split_ifs with h
    · rfl
    · exact byte_eq_of_sub_eq_zero _ _ (by rw [hvg]; exact not_not.mp h)
  have eB : (if vb ≠ 0 then px.B else s.px.B) = px.B := by
    split_ifs with h
    · rfl
    · exact byte_eq_of_sub_eq_zero _ _ (by rw [hvb]; exact not_not.mp h)
  have eA : (if va ≠ 0 then px.A else s.px.A) = px.A := by
    split_ifs with h
    · rfl
    · exact byte_eq_of_sub_eq_zero _ _ (by rw [hva]; exact not_not.mp h)
  rw [eR, eG, eB, eA]
  simp only [List.length_append, List.length_cons, List.length_nil]
  congr 3
  omega

theorem decodeTag_diffChunk_aux (pre post : List Byte) (s : DecState) (px : RGBA)
    (chunk : List Byte) (hc : chunk = diffChunk s.px px) :
    ∃ b1 rest, chunk = b1 :: rest ∧
      decodeTag (pre ++ (chunk ++ post)) s b1 (pre.length + 1) =
        .ok (px, s.run, pre.length + chunk.length) := by
  unfold diffChunk at hc
  simp only [] at hc
  split at hc
  · rename_i hin
    split at hc
    · -- DIFF8
      rename_i h8
      subst hc
      refine ⟨_, [], rfl, ?_⟩
      rw [decodeTag_diff8 _ _ _ _ _ _ (by omega) (by omega) (by omega),
        add8_sub8 s.px.R px.R 1 1 rfl (by omega) (by omega),
        add8_sub8 s.px.G px.G 1 1 rfl (by omega) (by omega),
        add8_sub8 s.px.B px.B 1 1 rfl (by omega) (by omega),
        byte_eq_of_sub_eq_zero s.px.A px.A h8.1]
      rfl
    · rename_i h8
      split at hc
      · -- DIFF16
        rename_i h16
        subst hc
        refine ⟨_, _, rfl, ?_⟩
        rw [decodeTag_diff16 _ _ _ ((px.R.val : Int) - (s.px.R.val : Int) + 15).toNat
            ((px.G.val : Int) - (s.px.G.val : Int) + 7).toNat
            ((px.B.val : Int) - (s.px.B.val : Int) + 7).toNat (by omega) (by omega) (by omega)
            (by simp only [List.cons_append, List.nil_append]; exact readByte_at1 _ _ _ _),
          add8_sub8 s.px.R px.R 15 15 rfl (by omega) (by omega),
          add8_sub8 s.px.G px.G 7 7 rfl (by omega) (by omega),
          add8_sub8 s.px.B px.B 7 7 rfl (by omega) (by omega),
          byte_eq_of_sub_eq_zero s.px.A px.A h16.1]
        rfl
      · -- DIFF24
        subst hc
        refine ⟨_, _, rfl, ?_⟩
        rw [decodeTag_diff24 _ _ _ ((px.R.val : Int) - (s.px.R.val : Int) + 15).toNat
            ((px.G.val : Int) - (s.px.G.val : Int) + 15).toNat
            ((px.B.val : Int) - (s.px.B.val : Int) + 15).toNat
            ((px.A.val : Int) - (s.px.A.val : Int) + 15).toNat
            (by omega) (by omega) (by omega) (by omega)
            (by simp only [List.cons_append, List.nil_append]; exact readByte_at1 _ _ _ _)
            (by simp only [List.cons_append, List.nil_append]; exact readByte_at2 _ _ _ _ _),
          add8_sub8 s.px.R px.R 15 15 rfl (by omega) (by omega),
          add8_sub8 s.px.G px.G 15 15 rfl (by omega) (by omega),
          add8_sub8 s.px.B px.B 15 15 rfl (by omega) (by omega),
          add8_sub8 s.px.A px.A 15 15 rfl (by omega) (by omega)]
        rfl
  · -- COLOR
    subst hc
    refine ⟨_, _, rfl, ?_⟩
    have := decodeTag_colorChunk pre post s px
    simp only [List.append_assoc] at this ⊢
    exact this

theorem decodeTag_diffChunk (pre post : List Byte) (s : DecState) (px : RGBA) :
    ∃ b1 rest, diffChunk s.px px = b1 :: rest ∧
      decodeTag (pre ++ (diffChunk s.px px ++ post)) s b1 (pre.length + 1) =
        .ok (px, s.run, pre.length + (diffChunk s.px px).length) :=
  decodeTag_diffChunk_aux pre post s px _ rfl

theorem decodeChunk_diffChunk (pre post : List Byte) (s : DecState) (px : RGBA)
    (hp : s.p = pre.length) :
    decodeChunk (pre ++ (diffChunk s.px px ++ post)) s =
      .ok { px := px, index := setSlot s.index ((colorHash px).val % 64) px,
            p := pre.length + (diffChunk s.px px).length, run := s.run, pix := s.pix } := by
  obtain ⟨b1, rest, h1, h2⟩ := decodeTag_diffChunk pre post s px
  have hread : readByte (pre ++ (diffChunk s.px px ++ post)) pre.length = .ok b1 := by
    rw [h1, List.cons_append]; exact readByte_at0 _ _ _
  unfold decodeChunk
  rw [hp, hread]
  simp only [Except.bind]
  rw [h2]

theorem decodeChunk_index (pre post : List Byte) (s : DecState) (k : Nat) (hk : k < 64)
    (hp : s.p = pre.length) :
    decodeChunk (pre ++ ([byte (qoiIndex ||| k)] ++ post)) s =
      .ok { px := s.index k,
            index := setSlot s.index ((colorHash (s.index k)).val % 64) (s.index k),
            p := pre.length + 1, run := s.run, pix := s.pix } := by
  unfold decodeChunk
  rw [hp, List.cons_append, readByte_at0]
  simp only [Except.bind]
  rw [decodeTag_index _ _ _ _ hk]

theorem decodeChunk_runChunk (pre post : List Byte) (s : DecState) (r : Nat)
    (h1 : 1 ≤ r) (h2 : r ≤ 0x2020) (hp : s.p = pre.length) :
    decodeChunk (pre ++ (runChunk r ++ post)) s =
      .ok { px := s.px, index := setSlot s.index ((colorHash s.px).val % 64) s.px,
            p := pre.length + (runChunk r).length, run := r - 1, pix := s.pix } := by
  unfold decodeChunk runChunk
  by_cases h : r < 33
  · rw [if_pos h, hp, List.cons_append, readByte_at0]
    simp only [Except.bind]
    rw [decodeTag_run8 _ _ _ _ (by omega)]
    rfl
  · rw [if_neg h, hp, List.cons_append, readByte_at0]
    simp only [Except.bind]
    rw [decodeTag_run16 _ _ _ _ (byte (r - 33)) (by rw [Nat.shiftRight_eq_div_pow]; omega)
        (by simp only [List.cons_append, List.nil_append]; exact readByte_at1 _ _ _ _),
      run16_value]
    simp only [List.length_cons, List.length_nil]
    congr 2
    omega

/-! ## The decoder loop -/

theorem decodeLoop_succ (data : List Byte) (cl n : Nat) (s : DecState) :
    decodeLoop data cl (n + 1) s = (decodeStep data cl s).bind (decodeLoop data cl n) := rfl

theorem decodeLoop_add (data : List Byte) (cl : Nat) (a b : Nat) : ∀ s : DecState,
    decodeLoop data cl (a + b) s = (decodeLoop data cl a s).bind (decodeLoop data cl b) := by
  induction a with
  | zero => intro s; rw [Nat.zero_add]; rfl
  | succ a ih =>
    intro s
    rw [Nat.add_right_comm, decodeLoop_succ, decodeLoop_succ]
    cases decodeStep data cl s with
    | error e => rfl
    | ok s1 => exact ih s1

theorem decodeLoop_run (data : List Byte) (cl : Nat) (k : Nat) : ∀ s : DecState, s.run = k →
    decodeLoop data cl k s =
      .ok { px := s.px, index := s.index, p := s.p, run := 0,
            pix := s.pix ++ List.replicate k s.px } := by
  induction k with
  | zero =>
    intro s hs
    cases s
    simp only at hs
    subst hs
    simp [decodeLoop]
  | succ k ih =>
    intro s hs
    rw [decodeLoop_succ]
    unfold decodeStep
    rw [if_pos (by omega)]
    simp only [Except.bind]
    rw [ih _ (by simp only; omega)]
    simp only [List.append_assoc, List.singleton_append, List.replicate_succ]

theorem decodeStep_chunk (data : List Byte) (cl : Nat) (d d1 : DecState)
    (hrun : d.run = 0) (hcl : d.p < cl) (h : decodeChunk data d = .ok d1) :
    decodeStep data cl d = .ok { d1 with pix := d1.pix ++ [d1.px] } := by
  unfold decodeStep
  rw [if_neg (by omega), if_pos hcl, h]
  rfl

theorem decodeLoop_runChunk (pre post : List Byte) (cl : Nat) (d : DecState) (r : Nat)
    (h1 : 1 ≤ r) (h2 : r ≤ 0x2020) (hp : d.p = pre.length) (hrun : d.run = 0)
    (hcl : pre.length < cl) :
    decodeLoop (pre ++ (runChunk r ++ post)) cl r d =
      .ok { px := d.px, index := setSlot d.index ((colorHash d.px).val % 64) d.px,
            p := pre.length + (runChunk r).length, run := 0,
            pix := d.pix ++ List.replicate r d.px } := by
  obtain ⟨k, rfl⟩ : ∃ k, r = k + 1 := ⟨r - 1, by omega⟩
  rw [decodeLoop_succ,
    decodeStep_chunk _ _ _ _ hrun (by omega) (decodeChunk_runChunk pre post d (k + 1) h1 h2 hp)]
  simp only [Except.bind]
  rw [decodeLoop_run _ _ k _ (by simp)]
  simp only [List.append_assoc, List.singleton_append, List.replicate_succ]

/-! ## The colour tables of encoder and decoder -/

theorem hash_startPx : (colorHash startPx).val % 64 = 63 := by decide

theorem hash_zeroPx : (colorHash zeroPx).val % 64 = 0 := by decide

theorem cacheRel_store_prev (e d : Cache) (prev : RGBA) (h : CacheRel e d) (hp : PrevOK e prev) :
    CacheRel e (setSlot d ((colorHash prev).val % 64) prev) := by
  intro k
  unfold setSlot
  by_cases hk : k = (colorHash prev).val % 64
  · rw [if_pos hk]
    rcases hp with hp | ⟨hp1, hp2⟩
    · left; rw [hk]; exact hp
    · right
      subst hp1
      rw [hash_startPx] at hk
      subst hk
      exact ⟨rfl, hp2, rfl⟩
  · rw [if_neg hk]; exact h k

theorem cacheRel_hit (e d : Cache) (px : RGBA) (h : CacheRel e d)
    (he : e ((colorHash px).val % 64) = px) : d ((colorHash px).val % 64) = px := by
  rcases h ((colorHash px).val % 64) with h1 | ⟨h1, h2, _⟩
  · rw [← h1]; exact he
  · exfalso
    rw [he] at h2
    subst h2
    rw [hash_zeroPx] at h1
    omega

theorem cacheRel_setSlot (e d : Cache) (k : Nat) (px : RGBA) (h : CacheRel e d) :
    CacheRel (setSlot e k px) (setSlot d k px) := by
  intro i
  unfold setSlot
  by_cases hi : i = k
  · left; rw [if_pos hi, if_pos hi]
  · rw [if_neg hi, if_neg hi]; exact h i

theorem setSlot_same (d : Cache) (k : Nat) (px : RGBA) (h : d k = px) : setSlot d k px = d := by
  funext i
  unfold setSlot
  by_cases hi : i = k
  · rw [if_pos hi, hi, h]
  · rw [if_neg hi]

theorem encodeStep_diff (s : EncState) (px : RGBA) (last : Bool) (h : px ≠ s.pxPrev) :
    encodeStep s px last =
      ({ index := if s.index ((colorHash px).val % 64) = px then s.index
                  else setSlot s.index ((colorHash px).val % 64) px,
         run := 0, pxPrev := px },
       (if s.run > 0 then runChunk s.run else []) ++
         (if s.index ((colorHash px).val % 64) = px
          then [byte (qoiIndex ||| ((colorHash px).val % 64))]
          else diffChunk s.pxPrev px)) := by
  unfold encodeStep
  by_cases hr : s.run > 0
  · by_cases hi : s.index ((colorHash px).val % 64) = px
    · simp [h, hr, hi]
    · simp [h, hr, hi]
  · have hr0 : s.run = 0 := by omega
    by_cases hi : s.index ((colorHash px).val % 64) = px
    · simp [h, hr0, hi]
    · simp [h, hr0, hi]

theorem diffChunk_length_pos (prev px : RGBA) : 0 < (diffChunk prev px).length := by
  obtain ⟨b1, rest, h, _⟩ :=
    decodeTag_diffChunk [] []
      { px := prev, index := zeroCache, p := 0, run := 0, pix := [] } px
  simp only at h
  rw [h]
  simp

/-! ## The decoder follows the encoder -/

theorem replicate_cons_comm {α : Type} (n : Nat) (c : α) (l : List α) :
    c :: (List.replicate n c ++ l) = List.replicate n c ++ c :: l := by
  induction n with
  | zero => rfl
  | succ n ih => rw [List.replicate_succ, List.cons_append, ih, List.cons_append]

theorem runChunk_length_pos (r : Nat) : 0 < (runChunk r).length := by
  unfold runChunk
  split <;> simp

theorem decodeLoop_runPhase (pre post : List Byte) (cl : Nat) (d : DecState) (r : Nat)
    (h2 : r ≤ 0x2020) (hp : d.p = pre.length) (hrun : d.run = 0)
    (hcl : 0 < r → pre.length < cl) :
    decodeLoop (pre ++ ((if r > 0 then runChunk r else []) ++ post)) cl r d =
      .ok { px := d.px,
            index := if r > 0 then setSlot d.index ((colorHash d.px).val % 64) d.px else d.index,
            p := pre.length + (if r > 0 then runChunk r else []).length, run := 0,
            pix := d.pix ++ List.replicate r d.px } := by
  by_cases hr : r > 0
  · simp only [hr, if_true]
    exact decodeLoop_runChunk pre post cl d r hr h2 hp hrun (hcl hr)
  · have hr0 : r = 0 := by omega
    subst hr0
    cases d
    simp only at hp hrun
    subst hp hrun
    simp [decodeLoop]

theorem decode_literal (s : EncState) (d2 : DecState) (px : RGBA) (pre2 post2 : List Byte)
    (hpx : d2.px = s.pxPrev) (hp : d2.p = pre2.length) (hrel : CacheRel s.index d2.index) :
    ∃ idx3,
      decodeChunk
          (pre2 ++ ((if s.index ((colorHash px).val % 64) = px
            then [byte (qoiIndex ||| ((colorHash px).val % 64))]
            else diffChunk s.pxPrev px) ++ post2)) d2 =
        .ok { px := px, index := idx3,
              p := pre2.length + (if s.index ((colorHash px).val % 64) = px
                then [byte (qoiIndex ||| ((colorHash px).val % 64))]
                else diffChunk s.pxPrev px).length,
              run := d2.run, pix := d2.pix } ∧
      CacheRel (if s.index ((colorHash px).val % 64) = px then s.index
                else setSlot s.index ((colorHash px).val % 64) px) idx3 := by
  have hk : (colorHash px).val % 64 < 64 := Nat.mod_lt _ (by decide)
  by_cases hhit : s.index ((colorHash px).val % 64) = px
  · rw [if_pos hhit, if_pos hhit]
    have hd := cacheRel_hit _ _ _ hrel hhit
    refine ⟨d2.index, ?_, hrel⟩
    rw [decodeChunk_index pre2 post2 d2 _ hk hp, hd, setSlot_same _ _ _ hd]
    rfl
  · rw [if_neg hhit, if_neg hhit]
    refine ⟨setSlot d2.index ((colorHash px).val % 64) px, ?_, cacheRel_setSlot _ _ _ _ hrel⟩
    rw [← hpx]
    exact decodeChunk_diffChunk pre2 post2 d2 px hp

theorem encEnd_cons (s : EncState) (t : RGBA × Bool) (tl : List (RGBA × Bool)) :
    encEnd s (t :: tl) = encEnd (encodeStep s t.1 t.2).1 tl := rfl

theorem decode_encOut (post : List Byte) (cl : Nat) :
    ∀ (l : List (RGBA × Bool)), LastFlagged l →
    ∀ (s : EncState) (d : DecState) (pre : List Byte),
      s.run < 0x2020 → (l = [] → s.run = 0) → d.px = s.pxPrev → d.run = 0 → d.p = pre.length →
      CacheRel s.index d.index → PrevOK s.index s.pxPrev →
      pre.length + (encOut s l).length ≤ cl →
      ∃ d', decodeLoop (pre ++ (encOut s l ++ post)) cl (s.run + l.length) d = .ok d' ∧
        d'.pix = d.pix ++ (List.replicate s.run s.pxPrev ++ l.map (fun t => t.1)) ∧
        d'.px = (encEnd s l).pxPrev ∧ CacheRel (encEnd s l).index d'.index := by
  intro l
  induction l with
  | nil =>
    intro _ s d pre _ h0 hpx _ _ hrel _ _
    refine ⟨d, ?_, ?_, hpx, hrel⟩
    · rw [h0 rfl]; rfl
    · rw [h0 rfl]; simp
  | cons t tl ih =>
    intro hfl s d pre hrun hnil hpx hdrun hdp hrel hprev hcl
    obtain ⟨px, last⟩ := t
    obtain ⟨hlast, hfl'⟩ := hfl
    simp only at hlast
    rw [encOut_cons] at hcl ⊢
    rw [encEnd_cons]
    simp only [List.length_cons, List.map_cons] at hcl ⊢
    by_cases hsame : px = s.pxPrev
    · subst hsame
      rw [encodeStep_same] at hcl ⊢
      by_cases hflush : s.run + 1 = 0x2020 ∨ last = true
      · rw [if_pos hflush] at hcl ⊢
        simp only [List.length_append] at hcl
        simp only []
        have hpos := runChunk_length_pos (s.run + 1)
        have hlen : s.run + (tl.length + 1) = (s.run + 1) + tl.length := by omega
        rw [List.append_assoc, hlen, decodeLoop_add,
          decodeLoop_runChunk pre _ cl d (s.run + 1) (by omega) (by omega) hdp hdrun (by omega)]
        simp only [Except.bind]
        have hih := ih hfl' { index := s.index, run := 0, pxPrev := s.pxPrev }
          { px := d.px, index := setSlot d.index ((colorHash d.px).val % 64) d.px,
            p := pre.length + (runChunk (s.run + 1)).length, run := 0,
            pix := d.pix ++ List.replicate (s.run + 1) d.px }
          (pre ++ runChunk (s.run + 1)) (by show 0 < 0x2020; decide) (fun _ => rfl) hpx rfl
          (by simp) (by rw [hpx]; exact cacheRel_store_prev _ _ _ hrel hprev) hprev
          (by simp only [List.length_append]; omega)
        obtain ⟨d', hd1, hd2, hd3, hd4⟩ := hih
        rw [List.append_assoc, Nat.zero_add] at hd1
        refine ⟨d', hd1, ?_, hd3, hd4⟩
        rw [hd2, hpx]
        simp only [List.replicate, List.nil_append, List.append_assoc, List.replicate_succ']
        simp
        exact replicate_cons_comm _ _ _
      · rw [if_neg hflush] at hcl ⊢
        have hl : ¬ (last = true) := fun h => hflush (Or.inr h)
        have htl : tl ≠ [] := fun h => hl (hlast.mpr h)
        have hih := ih hfl' { index := s.index, run := s.run + 1, pxPrev := s.pxPrev } d pre
          (by simp only; omega) (fun h => absurd h htl) hpx hdrun hdp hrel hprev
          (by simpa using hcl)
        obtain ⟨d', hd1, hd2, hd3, hd4⟩ := hih
        simp only [List.nil_append] at hd1 ⊢
        have hlen : s.run + (tl.length + 1) = s.run + 1 + tl.length := by omega
        rw [hlen]
        refine ⟨d', hd1, ?_, hd3, hd4⟩
        rw [hd2]
        simp only [List.replicate_succ', List.append_assoc, List.singleton_append]
    · have hE := encodeStep_diff s px last hsame
      generalize encodeStep s px last = r at hE hcl ⊢
      obtain ⟨s', out⟩ := r
      simp only [Prod.mk.injEq] at hE
      obtain ⟨hs', hout⟩ := hE
      have hs'run : s'.run = 0 := by rw [hs']
      have hs'px : s'.pxPrev = px := by rw [hs']
      have hs'idx : s'.index = (if s.index ((colorHash px).val % 64) = px then s.index
                    else setSlot s.index ((colorHash px).val % 64) px) := by rw [hs']
      clear hs'
      simp only [] at hcl ⊢
      have hlitpos : 0 < (if s.index ((colorHash px).val % 64) = px
            then [byte (qoiIndex ||| ((colorHash px).val % 64))]
            else diffChunk s.pxPrev px).length := by
        split
        · simp
        · exact diffChunk_length_pos _ _
      have hrunpos : 0 < s.run → 0 < (if s.run > 0 then runChunk s.run else []).length := by
        intro h
        rw [if_pos h]
        exact runChunk_length_pos _
      have hprev' : PrevOK s'.index s'.pxPrev := by
        left
        rw [hs'idx, hs'px]
        split
        · assumption
        · simp [setSlot]
      have hrel2 : CacheRel s.index
          (if s.run > 0 then setSlot d.index ((colorHash d.px).val % 64) d.px else d.index) := by
        split
        · rw [hpx]; exact cacheRel_store_prev _ _ _ hrel hprev
        · exact hrel
      obtain ⟨idx3, hlit, hrel3⟩ := decode_literal s
        { px := d.px,
          index := if s.run > 0 then setSlot d.index ((colorHash d.px).val % 64) d.px
                   else d.index,
          p := pre.length + (if s.run > 0 then runChunk s.run else []).length, run := 0,
          pix := d.pix ++ List.replicate s.run d.px } px
        (pre ++ (if s.run > 0 then runChunk s.run else []))
        (encOut s' tl ++ post)
        hpx (by simp) hrel2
      rw [← hs'idx] at hrel3
      generalize hrp : (if s.run > 0 then runChunk s.run else []) = runPart at *
      generalize hlt : (if s.index ((colorHash px).val % 64) = px
            then [byte (qoiIndex ||| ((colorHash px).val % 64))]
            else diffChunk s.pxPrev px) = lit at *
      subst hout
      simp only [List.length_append] at hcl
      have hdata : pre ++ (runPart ++ lit ++ encOut s' tl ++ post) =
          pre ++ (runPart ++ (lit ++ (encOut s' tl ++ post))) := by
        simp only [List.append_assoc]
      have hdata2 : (pre ++ runPart) ++ (lit ++ (encOut s' tl ++ post)) =
          pre ++ (runPart ++ (lit ++ (encOut s' tl ++ post))) := by
        simp only [List.append_assoc]
      have hdata3 : (pre ++ runPart ++ lit) ++ (encOut s' tl ++ post) =
          pre ++ (runPart ++ (lit ++ (encOut s' tl ++ post))) := by
        simp only [List.append_assoc]
      rw [hdata]
      rw [hdata2] at hlit
      have hrunphase := decodeLoop_runPhase pre (lit ++ (encOut s' tl ++ post)) cl d s.run
        (by omega) hdp hdrun (by intro h; have := hrunpos h; omega)
      rw [hrp] at hrunphase
      have hstep := decodeStep_chunk _ cl _ _ rfl
        (by simp only [List.length_append]; omega) hlit
      have hih := ih hfl' s'
        { px := px, index := idx3, p := (pre ++ runPart).length + lit.length, run := 0,
          pix := d.pix ++ List.replicate s.run d.px ++ [px] }
        (pre ++ runPart ++ lit) (by rw [hs'run]; decide) (fun _ => hs'run) hs'px.symm rfl
        (by simp only [List.length_append]) hrel3 hprev'
        (by simp only [List.length_append]; omega)
      obtain ⟨d', hd1, hd2, hd3, hd4⟩ := hih
      rw [hdata3, hs'run, Nat.zero_add] at hd1
      refine ⟨d', ?_, ?_, hd3, hd4⟩
      · rw [decodeLoop_add, hrunphase]
        simp only [Except.bind]
        rw [decodeLoop_succ, hstep]
        exact hd1
      · rw [hd2, hs'run, hs'px, hpx]
        simp only [List.replicate, List.nil_append, List.append_assoc, List.singleton_append]

theorem pixelSeq_map_fst (m : Image) :
    (pixelSeq m).map (fun t => t.1) =
      (List.range (m.h * m.w)).map fun k => rgbaColor (m.At (k % m.w) (k / m.w)) := by
  unfold pixelSeq
  rw [List.map_map]
  rfl

theorem index_lt (w h x y : Nat) (hx : x < w) (hy : y < h) : y * w + x < h * w := by
  have h1 : (y + 1) * w ≤ h * w := Nat.mul_le_mul_right w hy
  have h2 : (y + 1) * w = y * w + w := by ring
  omega

theorem decodeLoop_encodeData (m : Image) :
    ∃ d', decodeLoop (encodeData m) (encodeChunks m).length (m.w * m.h) decInit = .ok d' ∧
      d'.pix = (List.range (m.h * m.w)).map fun k => rgbaColor (m.At (k % m.w) (k / m.w)) := by
  have h := decode_encOut (List.replicate padding 0) (encodeChunks m).length (pixelSeq m)
    (pixelSeq_lastFlagged m) encInit decInit [] (by decide) (fun _ => rfl) rfl rfl rfl
    (fun k => Or.inl rfl) (Or.inr ⟨rfl, rfl⟩)
    (by rw [encodeChunks_eq]; simp)
  obtain ⟨d', hd1, hd2, _, _⟩ := h
  refine ⟨d', ?_, ?_⟩
  · rw [← hd1, pixelSeq_length, encodeData, encodeChunks_eq, Nat.mul_comm m.w m.h]
    simp [encInit]
  · rw [hd2, pixelSeq_map_fst]
    simp [decInit, encInit]


/-! ## Size of the chunk stream -/

theorem runChunk_length_le (r : Nat) : (runChunk r).length ≤ 2 := by
  unfold runChunk
  split <;> simp

theorem diffChunk_length_le (prev px : RGBA) : (diffChunk prev px).length ≤ 5 := by
  unfold diffChunk
  simp only []
  split
  · split
    · simp
    · split <;> simp
  · simp only [List.length_append, List.length_cons, List.length_nil]
    split <;> split <;> split <;> split <;> simp

theorem encodeStep_size (s : EncState) (px : RGBA) (last : Bool) :
    (encodeStep s px last).2.length + 5 * (encodeStep s px last).1.run ≤ 5 * s.run + 5 := by
  by_cases h : px = s.pxPrev
  · subst h
    rw [encodeStep_same]
    split
    · have := runChunk_length_le (s.run + 1)
      simp only []
      omega
    · simp only [List.length_nil]
      omega
  · rw [encodeStep_diff s px last h]
    simp only [List.length_append]
    have h1 : (if s.run > 0 then runChunk s.run else []).length ≤ 2 * s.run := by
      split
      · have := runChunk_length_le s.run
        omega
      · simp
    have h2 : (if s.index ((colorHash px).val % 64) = px
          then [byte (qoiIndex ||| ((colorHash px).val % 64))]
          else diffChunk s.pxPrev px).length ≤ 5 := by
      split
      · simp
      · exact diffChunk_length_le _ _
    omega

theorem encOut_size (l : List (RGBA × Bool)) : ∀ s : EncState,
    (encOut s l).length + 5 * (encEnd s l).run ≤ 5 * s.run + 5 * l.length := by
  induction l with
  | nil => intro s; simp [encOut, encEnd]
  | cons t tl ih =>
    intro s
    rw [encOut_cons]
    simp only [encEnd, List.length_append, List.length_cons]
    have h1 := encodeStep_size s t.1 t.2
    have h2 := ih (encodeStep s t.1 t.2).1
    omega


/-! ## The kind of the chunk written for a pixel -/

theorem tagOf_index (k : Nat) (hk : k < 64) : tagOf (byte (qoiIndex ||| k)) = some .index := by
  unfold tagOf
  rw [if_pos (index_bits k hk).1]

theorem tagOf_diff8 (fr fg fb : Nat) (hr : fr < 4) (hg : fg < 4) (hb : fb < 4) :
    tagOf (byte (qoiDiff8 ||| (fr <<< 4) ||| (fg <<< 2) ||| fb)) = some .diff8 := by
  obtain ⟨h1, h2, h3, h4, _⟩ := diff8_bits fr hr fg hg fb hb
  unfold tagOf
  rw [if_neg h1, if_neg h2, if_neg h3, if_pos h4]

theorem tagOf_diff16 (fr : Nat) (hr : fr < 32) :
    tagOf (byte (qoiDiff16 ||| fr)) = some .diff16 := by
  obtain ⟨h1, h2, h3, h4, h5, _⟩ := diff16_bits1 fr hr
  unfold tagOf
  rw [if_neg h1, if_neg h2, if_neg h3, if_neg h4, if_pos h5]

theorem tagOf_diff24 (k : Nat) (hk : k < 16) :
    tagOf (byte (qoiDiff24 ||| k)) = some .diff24 := by
  obtain ⟨h1, h2, h3, h4, h5, h6, _⟩ := diff24_bits1 k hk
  unfold tagOf
  rw [if_neg h1, if_neg h2, if_neg h3, if_neg h4, if_neg h5, if_pos h6]

theorem tagOf_color (vr vg vb va : Int) :
    tagOf (byte (qoiColor ||| cond3 vr 8 0 ||| cond3 vg 4 0 ||| cond3 vb 2 0 ||| cond3 va 1 0))
      = some .color := by
  rw [cond3_eq, cond3_eq, cond3_eq, cond3_eq]
  obtain ⟨h1, h2, h3, h4, h5, h6, h7, _⟩ :=
    color_bits_flags (decide (vr ≠ 0)) (decide (vg ≠ 0)) (decide (vb ≠ 0)) (decide (va ≠ 0))
  unfold tagOf
  rw [if_neg h1, if_neg h2, if_neg h3, if_neg h4, if_neg h5, if_neg h6, if_pos h7]

theorem color_presence (vr vg vb va : Int) :
    ((byte (qoiColor ||| cond3 vr 8 0 ||| cond3 vg 4 0 ||| cond3 vb 2 0 ||| cond3 va 1 0)).val
        &&& 8 ≠ 0 ↔ vr ≠ 0) ∧
    ((byte (qoiColor ||| cond3 vr 8 0 ||| cond3 vg 4 0 ||| cond3 vb 2 0 ||| cond3 va 1 0)).val
        &&& 4 ≠ 0 ↔ vg ≠ 0) ∧
    ((byte (qoiColor ||| cond3 vr 8 0 ||| cond3 vg 4 0 ||| cond3 vb 2 0 ||| cond3 va 1 0)).val
        &&& 2 ≠ 0 ↔ vb ≠ 0) ∧
    ((byte (qoiColor ||| cond3 vr 8 0 ||| cond3 vg 4 0 ||| cond3 vb 2 0 ||| cond3 va 1 0)).val
        &&& 1 ≠ 0 ↔ va ≠ 0) := by
  rw [cond3_eq, cond3_eq, cond3_eq, cond3_eq]
  obtain ⟨_, _, _, _, _, _, _, h8, h9, h10, h11⟩ :=
    color_bits_flags (decide (vr ≠ 0)) (decide (vg ≠ 0)) (decide (vb ≠ 0)) (decide (va ≠ 0))
  refine ⟨?_, ?_, ?_, ?_⟩
  · exact decide_eq_decide.mp h8
  · exact decide_eq_decide.mp h9
  · exact decide_eq_decide.mp h10
  · exact decide_eq_decide.mp h11

/-- The branch of `diffChunk` taken, in the words of the range tests. -/
theorem diffChunk_cases (prev px : RGBA) :
    (inDiff8 prev px ∧ chunkKind (diffChunk prev px) = some .diff8 ∧
      (diffChunk prev px).length = 1) ∨
    (¬ inDiff8 prev px ∧ inDiff16 prev px ∧ chunkKind (diffChunk prev px) = some .diff16 ∧
      (diffChunk prev px).length = 2) ∨
    (¬ inDiff8 prev px ∧ ¬ inDiff16 prev px ∧ inDiff24 prev px ∧
      chunkKind (diffChunk prev px) = some .diff24 ∧ (diffChunk prev px).length = 3) ∨
    (¬ inDiff8 prev px ∧ ¬ inDiff16 prev px ∧ ¬ inDiff24 prev px ∧
      chunkKind (diffChunk prev px) = some .color) := by
  unfold diffChunk inDiff8 inDiff16 inDiff24 delta chunkKind
  simp only []
  split
  · rename_i hin
    split
    · rename_i h8
      left
      refine ⟨by omega, ?_, rfl⟩
      simp only [List.head?_cons, Option.some_bind]
      exact tagOf_diff8 _ _ _ (by omega) (by omega) (by omega)
    · rename_i h8
      split
      · rename_i h16
        right; left
        refine ⟨by omega, by omega, ?_, rfl⟩
        simp only [List.head?_cons, Option.some_bind]
        exact tagOf_diff16 _ (by omega)
      · rename_i h16
        right; right; left
        refine ⟨by omega, by omega, by omega, ?_, rfl⟩
        simp only [List.head?_cons, Option.some_bind]
        exact tagOf_diff24 _ (by rw [Nat.shiftRight_eq_div_pow]; omega)
  · rename_i hin
    right; right; right
    refine ⟨by omega, by omega, by omega, ?_⟩
    simp only [List.append_assoc, List.singleton_append, List.head?_cons, Option.some_bind]
    exact tagOf_color _ _ _ _


theorem diffChunk_color (prev px : RGBA) (h : ¬ inDiff24 prev px) :
    diffChunk prev px =
      [byte (qoiColor ||| cond3 (delta prev.R px.R) 8 0 ||| cond3 (delta prev.G px.G) 4 0 |||
          cond3 (delta prev.B px.B) 2 0 ||| cond3 (delta prev.A px.A) 1 0)]
        ++ (if delta prev.R px.R ≠ 0 then [px.R] else [])
        ++ (if delta prev.G px.G ≠ 0 then [px.G] else [])
        ++ (if delta prev.B px.B ≠ 0 then [px.B] else [])
        ++ (if delta prev.A px.A ≠ 0 then [px.A] else []) := by
  unfold inDiff24 delta at h
  unfold diffChunk delta
  simp only []
  rw [if_neg (by omega)]


/-! ## The layout of a DIFF24 chunk -/

theorem diff24_val1 : ∀ fr < 32, (byte (qoiDiff24 ||| (fr >>> 1))).val = 224 + fr / 2 := by
  decide!

set_option synthInstance.maxSize 4096 in
set_option synthInstance.maxHeartbeats 400000 in
theorem diff24_val2 : ∀ fr < 32, ∀ fg < 32, ∀ bhi < 4,
    (byte ((fr <<< 7) ||| (fg <<< 2) ||| bhi)).val = (fr % 2) * 128 + fg * 4 + bhi := by
  decide!

set_option synthInstance.maxSize 4096 in
set_option synthInstance.maxHeartbeats 400000 in
theorem diff24_val3 : ∀ fb < 32, ∀ fa < 32,
    (byte ((fb <<< 5) ||| fa)).val = (fb % 8) * 32 + fa := by
  decide!

theorem diff24_number (fr fg fb fa : Nat) (hr : fr < 32) (hg : fg < 32) (hb : fb < 32)
    (ha : fa < 32) :
    fromBE [byte (qoiDiff24 ||| (fr >>> 1)),
      byte ((fr <<< 7) ||| (fg <<< 2) ||| (fb >>> 3)), byte ((fb <<< 5) ||| fa)] =
      0xE00000 + fr * 2 ^ 15 + fg * 2 ^ 10 + fb * 2 ^ 5 + fa := by
  have hb3 : fb >>> 3 < 4 := by rw [Nat.shiftRight_eq_div_pow]; omega
  have h1 := diff24_val1 fr hr
  have h2 := diff24_val2 fr hr fg hg (fb >>> 3) hb3
  have h3 := diff24_val3 fb hb fa ha
  simp only [fromBE, List.foldl]
  rw [h1, h2, h3, Nat.shiftRight_eq_div_pow]
  omega

theorem diffChunk_diff24 (prev px : RGBA) (h24 : inDiff24 prev px)
    (hn16 : ¬ inDiff16 prev px) :
    diffChunk prev px =
      [byte (qoiDiff24 ||| ((delta prev.R px.R + 15).toNat >>> 1)),
       byte (((delta prev.R px.R + 15).toNat <<< 7) ||| ((delta prev.G px.G + 15).toNat <<< 2) |||
          ((delta prev.B px.B + 15).toNat >>> 3)),
       byte (((delta prev.B px.B + 15).toNat <<< 5) ||| (delta prev.A px.A + 15).toNat)] := by
  unfold inDiff24 delta at h24
  unfold inDiff16 delta at hn16
  unfold diffChunk delta
  simp only []
  rw [if_pos (by omega), if_neg (by omega), if_neg (by omega)]


/-! ## The colour table of the encoder -/

theorem encodeStep_pxPrev (s : EncState) (px : RGBA) (last : Bool) :
    (encodeStep s px last).1.pxPrev = px := by
  by_cases h : px = s.pxPrev
  · subst h
    rw [encodeStep_same]
    split <;> rfl
  · rw [encodeStep_diff s px last h]

theorem encodeStep_index_other (s : EncState) (px : RGBA) (last : Bool) (k : Nat)
    (hk : k ≠ (colorHash px).val % 64) :
    (encodeStep s px last).1.index k = s.index k := by
  by_cases h : px = s.pxPrev
  · subst h
    rw [encodeStep_same]
    split <;> rfl
  · rw [encodeStep_diff s px last h]
    simp only []
    split
    · rfl
    · unfold setSlot
      rw [if_neg hk]

theorem encEnd_index_other (k : Nat) (mid : List (RGBA × Bool)) : ∀ s : EncState,
    (∀ t ∈ mid, (colorHash t.1).val % 64 ≠ k) → (encEnd s mid).index k = s.index k := by
  induction mid with
  | nil => intro s _; rfl
  | cons t tl ih =>
    intro s h
    simp only [encEnd]
    rw [ih _ (fun u hu => h u (List.mem_cons_of_mem _ hu))]
    exact encodeStep_index_other s t.1 t.2 k (fun e => h t (List.mem_cons_self _ _) e.symm)

theorem encEnd_pxPrev_ne (B : RGBA) (mid : List (RGBA × Bool)) : ∀ s : EncState,
    s.pxPrev ≠ B → (∀ t ∈ mid, t.1 ≠ B) → (encEnd s mid).pxPrev ≠ B := by
  induction mid with
  | nil => intro s h _; exact h
  | cons t tl ih =>
    intro s _ h
    simp only [encEnd]
    apply ih
    · rw [encodeStep_pxPrev]; exact h t (List.mem_cons_self _ _)
    · exact fun u hu => h u (List.mem_cons_of_mem _ hu)

theorem index_byte_val : ∀ k < 64, (byte (qoiIndex ||| k)).val = k := by
  decide!


/-! ## Wraparound arithmetic of the DIFF chunks in the decoder -/

theorem add8_sub8_val (a cb : Byte) (f : Nat) (c : Int) (hcb : (cb.val : Int) = c)
    (hf : f < 256) :
    ((add8 a (sub8 (byte f) cb)).val : Int) = ((a.val : Int) + ((f : Int) - c)) % 256 := by
  simp only [add8, sub8, byte]
  omega

theorem diff8_fields : ∀ b : Byte, b.val &&& qoiMask2 = qoiDiff8 →
    b.val &&& qoiMask2 ≠ qoiIndex ∧ b.val &&& qoiMask3 ≠ qoiRun8 ∧
    b.val &&& qoiMask3 ≠ qoiRun16 ∧
    (b.val >>> 4) &&& 0x03 = b.val / 16 % 4 ∧ (b.val >>> 2) &&& 0x03 = b.val / 4 % 4 ∧
    b.val &&& 0x03 = b.val % 4 := by
  decide!

theorem diff16_fields1 : ∀ b : Byte, b.val &&& qoiMask3 = qoiDiff16 →
    b.val &&& qoiMask2 ≠ qoiIndex ∧ b.val &&& qoiMask3 ≠ qoiRun8 ∧
    b.val &&& qoiMask3 ≠ qoiRun16 ∧ b.val &&& qoiMask2 ≠ qoiDiff8 ∧
    b.val &&& 0x1f = b.val % 32 := by
  decide!

theorem diff16_fields2 : ∀ b : Byte,
    b.val >>> 4 = b.val / 16 ∧ b.val &&& 0x0f = b.val % 16 := by
  decide!

theorem diff24_fields1 : ∀ b : Byte, b.val &&& qoiMask4 = qoiDiff24 →
    b.val &&& qoiMask2 ≠ qoiIndex ∧ b.val &&& qoiMask3 ≠ qoiRun8 ∧
    b.val &&& qoiMask3 ≠ qoiRun16 ∧ b.val &&& qoiMask2 ≠ qoiDiff8 ∧
    b.val &&& qoiMask3 ≠ qoiDiff16 ∧ b.val / 16 = 14 ∧
    (b.val &&& 0x0f) <<< 1 = (b.val % 16) * 2 := by
  decide!

theorem diff24_fields2 : ∀ b : Byte,
    b.val >>> 7 = b.val / 128 ∧ (b.val &&& 0x7c) >>> 2 = b.val / 4 % 32 ∧
    (b.val &&& 0x03) <<< 3 = (b.val % 4) * 8 := by
  decide!

theorem diff24_fields3 : ∀ b : Byte,
    (b.val &&& 0xe0) >>> 5 = b.val / 32 ∧ b.val &&& 0x1f = b.val % 32 := by
  decide!

theorem or_bit : ∀ x < 16, ∀ y < 2, (x * 2) ||| y = x * 2 + y := by
  decide!

theorem or_low3 : ∀ x < 4, ∀ y < 8, (x * 8) ||| y = x * 8 + y := by
  decide!



theorem decodeLoop_encodeData_state (m : Image) :
    ∃ d', decodeLoop (encodeData m) (encodeChunks m).length (m.w * m.h) decInit = .ok d' ∧
      d'.px = (encodePixels m).1.pxPrev ∧ CacheRel (encodePixels m).1.index d'.index := by
  have h := decode_encOut (List.replicate padding 0) (encodeChunks m).length (pixelSeq m)
    (pixelSeq_lastFlagged m) encInit decInit [] (by decide) (fun _ => rfl) rfl rfl rfl
    (fun k => Or.inl rfl) (Or.inr ⟨rfl, rfl⟩)
    (by rw [encodeChunks_eq]; simp)
  obtain ⟨d', hd1, _, hd3, hd4⟩ := h
  refine ⟨d', ?_, ?_, ?_⟩
  · rw [← hd1, pixelSeq_length, encodeData, encodeChunks_eq, Nat.mul_comm m.w m.h]
    simp [encInit]
  · rw [encodePixels_eq]; exact hd3
  · rw [encodePixels_eq]; exact hd4


/-! ## Steps of the decoder -/

theorem bind_eq_ok {α β : Type} {x : Except DecodeError α} {f : α → Except DecodeError β}
    {y : β} (h : x.bind f = .ok y) : ∃ a, x = .ok a ∧ f a = .ok y := by
  cases x with
  | error e => cases h
  | ok a => exact ⟨a, rfl, h⟩

theorem decodeChunk_shape (data : List Byte) (s s' : DecState)
    (h : decodeChunk data s = .ok s') :
    s'.index = setSlot s.index ((colorHash s'.px).val % 64) s'.px ∧ s'.pix = s.pix := by
  unfold decodeChunk at h
  obtain ⟨b1, _, h1⟩ := bind_eq_ok h
  obtain ⟨t, _, h2⟩ := bind_eq_ok h1
  cases h2
  exact ⟨rfl, rfl⟩

theorem decodeStep_shape (data : List Byte) (cl : Nat) (s s' : DecState)
    (h : decodeStep data cl s = .ok s') :
    s'.pix = s.pix ++ [s'.px] ∧
    (s'.index = s.index ∨ s'.index = setSlot s.index ((colorHash s'.px).val % 64) s'.px) := by
  unfold decodeStep at h
  split at h
  · cases h; exact ⟨rfl, Or.inl rfl⟩
  · split at h
    · obtain ⟨s1, h1, h2⟩ := bind_eq_ok h
      cases h2
      obtain ⟨e1, e2⟩ := decodeChunk_shape data s s1 h1
      exact ⟨by simp only [e2], Or.inr e1⟩
    · cases h; exact ⟨rfl, Or.inl rfl⟩

theorem slotsHashed_setSlot (index : Cache) (px : RGBA) (h : SlotsHashed index) :
    SlotsHashed (setSlot index ((colorHash px).val % 64) px) := by
  intro k
  unfold setSlot
  by_cases hk : k = (colorHash px).val % 64
  · rw [if_pos hk]; exact Or.inr hk.symm
  · rw [if_neg hk]; exact h k

theorem decodeLoop_slotsHashed (data : List Byte) (cl : Nat) (n : Nat) :
    ∀ s s' : DecState, SlotsHashed s.index → decodeLoop data cl n s = .ok s' →
      SlotsHashed s'.index := by
  induction n with
  | zero => intro s s' hs h; cases h; exact hs
  | succ n ih =>
    intro s s' hs h
    rw [decodeLoop_succ] at h
    obtain ⟨s1, h1, h2⟩ := bind_eq_ok h
    refine ih s1 s' ?_ h2
    rcases (decodeStep_shape data cl s s1 h1).2 with e | e
    · rw [e]; exact hs
    · rw [e]; exact slotsHashed_setSlot _ _ hs

theorem slotsHashed_zeroCache : SlotsHashed zeroCache := fun _ => Or.inl rfl

theorem index_tag_lt : ∀ b : Byte, b.val &&& qoiMask2 = qoiIndex → b.val < 64 := by
  decide!


/-! ## The decoder stays inside the data -/

theorem readByte_ok (data : List Byte) (i : Nat) (h : i < data.length) :
    ∃ b, readByte data i = .ok b := by
  unfold readByte
  rw [List.getElem?_eq_getElem h]
  exact ⟨_, rfl⟩

theorem readByte_congr (data data' : List Byte) (i : Nat) (h : data'[i]? = data[i]?) :
    readByte data' i = readByte data i := by
  unfold readByte
  rw [h]

theorem readChannel_ok (data : List Byte) (c : Bool) (old : Byte) (q : Nat)
    (h : q < data.length) :
    ∃ r, readChannel data c old q = .ok r ∧ q ≤ r.2 ∧ r.2 ≤ q + 1 := by
  unfold readChannel
  cases c with
  | false => exact ⟨_, rfl, Nat.le_refl _, Nat.le_succ _⟩
  | true =>
    obtain ⟨b, hb⟩ := readByte_ok data q h
    rw [if_pos rfl, hb]
    exact ⟨_, rfl, Nat.le_succ _, Nat.le_refl _⟩

theorem readChannel_congr (data data' : List Byte) (c : Bool) (old : Byte) (q : Nat)
    (h : data'[q]? = data[q]?) :
    readChannel data' c old q = readChannel data c old q := by
  unfold readChannel
  rw [readByte_congr data data' q h]

theorem decodeColor_ok (data : List Byte) (b1 : Byte) (px : RGBA) (p : Nat)
    (h : p + 3 < data.length) :
    ∃ r, decodeColor data b1 px p = .ok r ∧ p ≤ r.2 ∧ r.2 ≤ p + 4 := by
  unfold decodeColor
  obtain ⟨r1, e1, l1, u1⟩ := readChannel_ok data (decide (b1.val &&& 8 ≠ 0)) px.R p (by omega)
  obtain ⟨r2, e2, l2, u2⟩ := readChannel_ok data (decide (b1.val &&& 4 ≠ 0)) px.G r1.2 (by omega)
  obtain ⟨r3, e3, l3, u3⟩ := readChannel_ok data (decide (b1.val &&& 2 ≠ 0)) px.B r2.2 (by omega)
  obtain ⟨r4, e4, l4, u4⟩ := readChannel_ok data (decide (b1.val &&& 1 ≠ 0)) px.A r3.2 (by omega)
  rw [e1]
  simp only [Except.bind]
  rw [e2]
  simp only [Except.bind]
  rw [e3]
  simp only [Except.bind]
  rw [e4]
  exact ⟨_, rfl, by simp only []; omega, by simp only []; omega⟩

theorem decodeColor_congr (data data' : List Byte) (b1 : Byte) (px : RGBA) (p : Nat)
    (hlen : p + 3 < data.length)
    (h : ∀ j, j < 4 → data'[p + j]? = data[p + j]?) :
    decodeColor data' b1 px p = decodeColor data b1 px p := by
  have hq : ∀ q, p ≤ q → q ≤ p + 3 → data'[q]? = data[q]? := by
    intro q h1 h2
    have := h (q - p) (by omega)
    rw [show p + (q - p) = q by omega] at this
    exact this
  unfold decodeColor
  obtain ⟨r1, e1, l1, u1⟩ := readChannel_ok data (decide (b1.val &&& 8 ≠ 0)) px.R p (by omega)
  obtain ⟨r2, e2, l2, u2⟩ := readChannel_ok data (decide (b1.val &&& 4 ≠ 0)) px.G r1.2 (by omega)
  obtain ⟨r3, e3, l3, u3⟩ := readChannel_ok data (decide (b1.val &&& 2 ≠ 0)) px.B r2.2 (by omega)
  obtain ⟨r4, e4, l4, u4⟩ := readChannel_ok data (decide (b1.val &&& 1 ≠ 0)) px.A r3.2 (by omega)
  rw [readChannel_congr data data' _ _ p (hq p (by omega) (by omega)), e1]
  simp only [Except.bind]
  rw [readChannel_congr data data' _ _ r1.2 (hq _ (by omega) (by omega)), e2]
  simp only [Except.bind]
  rw [readChannel_congr data data' _ _ r2.2 (hq _ (by omega) (by omega)), e3]
  simp only [Except.bind]
  rw [readChannel_congr data data' _ _ r3.2 (hq _ (by omega) (by omega)), e4]

theorem decodeTag_ok (data : List Byte) (s : DecState) (b1 : Byte) (p : Nat)
    (h : p + 3 < data.length) :
    ∃ t, decodeTag data s b1 p = .ok t ∧ p ≤ t.2.2 ∧ t.2.2 ≤ p + 4 := by
  obtain ⟨b2, hb2⟩ := readByte_ok data p (by omega)
  obtain ⟨b3, hb3⟩ := readByte_ok data (p + 1) (by omega)
  obtain ⟨c, hc, lc, uc⟩ := decodeColor_ok data b1 s.px p h
  unfold decodeTag
  simp only [hb2, hb3, hc, Except.bind]
  split_ifs
  all_goals exact ⟨_, rfl, by simp only []; omega, by simp only []; omega⟩

theorem decodeTag_congr (data data' : List Byte) (s : DecState) (b1 : Byte) (p : Nat)
    (hlen : p + 3 < data.length)
    (h : ∀ j, j < 4 → data'[p + j]? = data[p + j]?) :
    decodeTag data' s b1 p = decodeTag data s b1 p := by
  have h0 : readByte data' p = readByte data p := readByte_congr _ _ _ (h 0 (by omega))
  have h1 : readByte data' (p + 1) = readByte data (p + 1) := readByte_congr _ _ _ (h 1 (by omega))
  have hc := decodeColor_congr data data' b1 s.px p hlen h
  simp only [decodeTag, h0, h1, hc]

theorem decodeChunk_ok (data : List Byte) (s : DecState) (h : s.p + 4 < data.length) :
    ∃ s', decodeChunk data s = .ok s' ∧ s.p + 1 ≤ s'.p ∧ s'.p ≤ s.p + 5 := by
  obtain ⟨b1, hb1⟩ := readByte_ok data s.p (by omega)
  obtain ⟨t, ht, lt, ut⟩ := decodeTag_ok data s b1 (s.p + 1) (by omega)
  unfold decodeChunk
  rw [hb1]
  simp only [Except.bind]
  rw [ht]
  exact ⟨_, rfl, by simp only []; omega, by simp only []; omega⟩

theorem decodeChunk_congr (data data' : List Byte) (s : DecState)
    (hlen : s.p + 4 < data.length)
    (h : ∀ j, j < 5 → data'[s.p + j]? = data[s.p + j]?) :
    decodeChunk data' s = decodeChunk data s := by
  have h0 : readByte data' s.p = readByte data s.p := readByte_congr _ _ _ (h 0 (by omega))
  obtain ⟨b1, hb1⟩ := readByte_ok data s.p (by omega)
  have ht := decodeTag_congr data data' s b1 (s.p + 1) (by omega)
    (fun j hj => by
      have := h (1 + j) (by omega)
      rw [← Nat.add_assoc] at this
      exact this)
  unfold decodeChunk
  rw [h0, hb1]
  simp only [Except.bind]
  rw [ht]

theorem decodeStep_ok (data : List Byte) (cl : Nat) (s : DecState)
    (h : cl + 4 ≤ data.length) : ∃ s', decodeStep data cl s = .ok s' := by
  unfold decodeStep
  split
  · exact ⟨_, rfl⟩
  · split
    · rename_i hp
      obtain ⟨s1, h1, _⟩ := decodeChunk_ok data s (by omega)
      rw [h1]
      exact ⟨_, rfl⟩
    · exact ⟨_, rfl⟩

theorem decodeLoop_ok (data : List Byte) (cl : Nat) (h : cl + 4 ≤ data.length) (n : Nat) :
    ∀ s : DecState, ∃ s', decodeLoop data cl n s = .ok s' := by
  induction n with
  | zero => intro s; exact ⟨s, rfl⟩
  | succ n ih =>
    intro s
    obtain ⟨s1, h1⟩ := decodeStep_ok data cl s h
    obtain ⟨s2, h2⟩ := ih s1
    rw [decodeLoop_succ, h1]
    exact ⟨s2, h2⟩

theorem decodeStep_idle (data data' : List Byte) (cl : Nat) (s : DecState)
    (h : 0 < s.run ∨ cl ≤ s.p) : decodeStep data' cl s = decodeStep data cl s := by
  unfold decodeStep
  by_cases hr : s.run > 0
  · rw [if_pos hr, if_pos hr]
  · have hp : ¬ s.p < cl := by omega
    rw [if_neg hr, if_neg hr, if_neg hp, if_neg hp]


/-! ## The pixel loop on a stream with a valid header -/

theorem fromBE_four (bs : List Byte) (h : bs.length = 4) : fromBE bs < 2 ^ 32 := by
  match bs, h with
  | [a, b, c, d], _ =>
    simp only [fromBE, List.foldl]
    omega

theorem chunksLen_eq (L : Nat) (h4 : 4 ≤ L) (h : L < 2 ^ 32) :
    (L + 2 ^ 32 - padding) % 2 ^ 32 = L - 4 := by
  unfold padding
  omega

theorem Decode_valid (r : List Byte) (hlen : 12 ≤ r.length) (hmagic : r.take 4 = magic)
    (hL : fromBE ((r.drop 8).take 4) = (r.drop 12).length) (h4 : 4 ≤ (r.drop 12).length) :
    ∃ s, decodeLoop (r.drop 12) ((r.drop 12).length - 4)
        (fromBE ((r.drop 4).take 2) * fromBE ((r.drop 6).take 2)) decInit = .ok s ∧
      Decode r = .ok { w := fromBE ((r.drop 4).take 2), h := fromBE ((r.drop 6).take 2),
                       pix := s.pix } := by
  have hlt : fromBE ((r.drop 8).take 4) < 2 ^ 32 :=
    fromBE_four _ (by rw [List.length_take, List.length_drop]; omega)
  obtain ⟨s, hs⟩ := decodeLoop_ok (r.drop 12) ((r.drop 12).length - 4) (by omega)
    (fromBE ((r.drop 4).take 2) * fromBE ((r.drop 6).take 2)) decInit
  refine ⟨s, hs, ?_⟩
  rw [Decode_eq_decodeBody r hlen, decodeBody, if_neg (fun h => h hmagic),
    if_neg (fun h => h hL), chunksLen_eq _ (by omega) hlt, hL, hs]

theorem decodeStep_p (data : List Byte) (cl : Nat) (s s' : DecState)
    (h : cl + 4 ≤ data.length) (hs : decodeStep data cl s = .ok s') (hp : s.p ≤ cl + 4) :
    s'.p ≤ cl + 4 := by
  unfold decodeStep at hs
  split at hs
  · cases hs; exact hp
  · split at hs
    · rename_i hlt
      obtain ⟨s1, h1, l1, u1⟩ := decodeChunk_ok data s (by omega)
      rw [h1] at hs
      cases hs
      show s1.p ≤ cl + 4
      omega
    · cases hs; exact hp

theorem decodeLoop_p (data : List Byte) (cl : Nat) (h : cl + 4 ≤ data.length) (n : Nat) :
    ∀ s s' : DecState, decodeLoop data cl n s = .ok s' → s.p ≤ cl + 4 → s'.p ≤ cl + 4 := by
  induction n with
  | zero => intro s s' hs hp; cases hs; exact hp
  | succ n ih =>
    intro s s' hs hp
    rw [decodeLoop_succ] at hs
    obtain ⟨s1, h1, h2⟩ := bind_eq_ok hs
    exact ih s1 s' h2 (decodeStep_p data cl s s1 h h1 hp)

theorem decodeLoop_pix (data : List Byte) (cl : Nat) (n : Nat) :
    ∀ s s' : DecState, decodeLoop data cl n s = .ok s' →
      ∃ l, s'.pix = s.pix ++ l ∧ l.length = n ∧ (0 < n → l.getLast? = some s'.px) := by
  induction n with
  | zero =>
    intro s s' hs
    cases hs
    exact ⟨[], (List.append_nil _).symm, rfl, fun h => absurd h (Nat.lt_irrefl 0)⟩
  | succ n ih =>
    intro s s' hs
    rw [decodeLoop_add] at hs
    obtain ⟨s1, h1, h2⟩ := bind_eq_ok hs
    obtain ⟨l, hl1, hl2, _⟩ := ih s s1 h1
    rw [decodeLoop_succ] at h2
    obtain ⟨s2, h3, h4⟩ := bind_eq_ok h2
    have h5 : s2 = s' := Except.ok.inj h4
    rw [h5] at h3
    obtain ⟨hp, _⟩ := decodeStep_shape data cl s1 s' h3
    refine ⟨l ++ [s'.px], ?_, ?_, fun _ => ?_⟩
    · rw [hp, hl1, List.append_assoc]
    · rw [List.length_append, hl2]; rfl
    · exact List.getLast?_concat _

theorem decodeLoop_position (data : List Byte) (cl N i : Nat) (s sN : DecState) (hi : i < N)
    (hN : decodeLoop data cl N decInit = .ok sN)
    (hs : decodeLoop data cl i decInit = .ok s) (hrun : s.run = 0) (hp : cl ≤ s.p) :
    sN.pix[i]? = some s.px ∧ (0 < i → sN.pix[i - 1]? = some s.px) ∧ (i = 0 → s.px = startPx) := by
  obtain ⟨l, hl1, hl2, hl3⟩ := decodeLoop_pix data cl i decInit s hs
  have hN2 : decodeLoop data cl (i + ((N - i - 1) + 1)) decInit = .ok sN := by
    rw [show i + ((N - i - 1) + 1) = N by omega]
    exact hN
  rw [decodeLoop_add, hs] at hN2
  have hN3 : decodeLoop data cl ((N - i - 1) + 1) s = .ok sN := hN2
  rw [decodeLoop_succ] at hN3
  have hstep : decodeStep data cl s = .ok { s with pix := s.pix ++ [s.px] } := by
    unfold decodeStep
    rw [if_neg (by omega), if_neg (by omega)]
  rw [hstep] at hN3
  obtain ⟨l', hl4, _, _⟩ := decodeLoop_pix data cl (N - i - 1) _ sN hN3
  have hpix : sN.pix = l ++ (s.px :: l') := by
    rw [hl4]
    show (s.pix ++ [s.px]) ++ l' = l ++ (s.px :: l')
    rw [hl1]
    show (([] : List RGBA) ++ l ++ [s.px]) ++ l' = l ++ (s.px :: l')
    rw [List.nil_append, List.append_assoc]
    rfl
  refine ⟨?_, fun hpos => ?_, fun h0 => ?_⟩
  · rw [hpix, List.getElem?_append_right (by omega), hl2, Nat.sub_self,
      List.getElem?_cons_zero]
  · rw [hpix, List.getElem?_append_left (by omega), ← hl3 hpos, List.getLast?_eq_getElem?, hl2]
  · subst h0
    cases hs
    rfl

theorem decodeLoop_no_chunks (data : List Byte) (n : Nat) : ∀ s : DecState, s.run = 0 →
    decodeLoop data 0 n s = .ok { s with pix := s.pix ++ List.replicate n s.px } := by
  induction n with
  | zero =>
    intro s _
    show Except.ok s = _
    rw [List.replicate_zero, List.append_nil]
  | succ n ih =>
    intro s hrun
    have hstep : decodeStep data 0 s = .ok { s with pix := s.pix ++ [s.px] } := by
      unfold decodeStep
      rw [if_neg (by omega), if_neg (by omega)]
    rw [decodeLoop_succ, hstep]
    show decodeLoop data 0 n { s with pix := s.pix ++ [s.px] } = _
    rw [ih { s with pix := s.pix ++ [s.px] } hrun]
    show Except.ok { s with pix := (s.pix ++ [s.px]) ++ List.replicate n s.px } = _
    rw [List.append_assoc, List.replicate_succ]
    rfl


/-! ## Main theorems -/

/-- C1: round trip.  For every pixel grid whose width and height fit in 16 bits and
whose chunk stream with padding has a length that fits in 32 bits, `Decode` applied
to the bytes written by `Encode` succeeds and returns a grid of the same width and
height whose pixel at every coordinate is the 8-bit RGBA pixel the encoder read
there; for a grid of `color.RGBA` pixels that is the input pixel itself, in all four
channels. -/
theorem round_trip (m : Image) (hw : m.w < 2 ^ 16) (hh : m.h < 2 ^ 16)
    (hl : (encodeData m).length < 2 ^ 32) :
    ∃ img, Decode (Encode m) = .ok img ∧ img.w = m.w ∧ img.h = m.h ∧
      img.pix.length = m.w * m.h ∧
      (∀ x y, x < m.w → y < m.h → img.At x y = rgbaColor (m.At x y)) ∧
      (∀ x y c, x < m.w → y < m.h → m.At x y = Color.rgba c → img.At x y = c) := by
  obtain ⟨d', hd1, hd2⟩ := decodeLoop_encodeData m
  have hAt : ∀ x y, x < m.w → y < m.h →
      (RGBAImage.At { w := m.w, h := m.h, pix := d'.pix } x y) = rgbaColor (m.At x y) := by
    intro x y hx hy
    have hi := index_lt m.w m.h x y hx hy
    have h1 : (y * m.w + x) % m.w = x := by
      rw [Nat.mul_comm, Nat.mul_add_mod, Nat.mod_eq_of_lt hx]
    have h2 : (y * m.w + x) / m.w = y := by
      rw [Nat.mul_comm, Nat.mul_add_div (by omega), Nat.div_eq_of_lt hx, Nat.add_zero]
    unfold RGBAImage.At
    simp only [hx, hy, and_self, if_true, hd2]
    rw [List.getElem?_map, List.getElem?_range hi]
    simp only [Option.map_some', Option.getD_some, h1, h2]
  refine ⟨{ w := m.w, h := m.h, pix := d'.pix }, ?_, rfl, rfl, ?_, hAt, ?_⟩
  · rw [Decode_Encode m hw hh hl, hd1]
  · simp only [hd2, List.length_map, List.length_range, Nat.mul_comm]
  · intro x y c hx hy hc
    rw [hAt x y hx hy, hc]
    rfl

theorem round_trip_witness :
    ∃ img, Decode (Encode sampleImage) = .ok img ∧
      img.pix = [{ R := 0, G := 0, B := 7, A := 255 }, { R := 200, G := 0, B := 7, A := 255 },
        { R := 0, G := 1, B := 7, A := 255 }, { R := 200, G := 1, B := 7, A := 255 }] := by
  obtain ⟨img, h1, _, _, _, _, _⟩ := round_trip sampleImage (by decide) (by decide) (by decide)
  refine ⟨img, h1, ?_⟩
  have h2 : Decode (Encode sampleImage)
      = .ok { w := 2, h := 2, pix := [{ R := 0, G := 0, B := 7, A := 255 },
        { R := 200, G := 0, B := 7, A := 255 },
        { R := 0, G := 1, B := 7, A := 255 }, { R := 200, G := 1, B := 7, A := 255 }] } := by
    decide
  rw [h2] at h1
  cases h1
  rfl

/-- C2: on a twelve-byte input with a valid header that declares a 1×1 image and a
stream length of 0, `Decode` reads `data[0]` of an empty slice: it aborts with an
index-out-of-range panic instead of returning an image or an error. -/
theorem decode_panics_on_short_stream :
    Decode [0x71, 0x6f, 0x69, 0x66, 0, 1, 0, 1, 0, 0, 0, 0] = .error .indexOutOfRange := by
  decide

/-- C3, counterexample: four bytes that are not the magic tag and nothing after
them make `Decode` fail with `io.EOF`, not with the invalid-header error. -/
theorem header_short_not_invalidHeader :
    4 ≤ ([0x61, 0x62, 0x63, 0x64] : List Byte).length ∧
    ([0x61, 0x62, 0x63, 0x64] : List Byte).take 4 ≠ magic ∧
    Decode [0x61, 0x62, 0x63, 0x64] = .error .eof ∧
    Decode [0x61, 0x62, 0x63, 0x64] ≠ .error .invalidHeader := by
  decide

/-- C3, amended: an input whose first 4 bytes are not the magic tag fails with the
invalid-header error when all 12 header bytes are present, whatever follows; when
fewer than 12 bytes are present it fails with a read error instead. -/
theorem header_validation (r : List Byte) (hm : r.take 4 ≠ magic) :
    (12 ≤ r.length → Decode r = .error .invalidHeader) ∧
    (r.length < 12 → Decode r = .error .eof ∨ Decode r = .error .unexpectedEOF) := by
  refine ⟨fun h12 => ?_, fun hlt => Decode_short r hlt⟩
  rw [Decode_eq_decodeBody r h12, decodeBody, if_pos hm]

theorem header_validation_witness :
    Decode [0x61, 0x62, 0x63, 0x64, 0, 1, 0, 1, 0, 0, 0, 4, 0, 0, 0, 0] = .error .invalidHeader :=
  (header_validation [0x61, 0x62, 0x63, 0x64, 0, 1, 0, 1, 0, 0, 0, 4, 0, 0, 0, 0]
    (by decide)).1 (by decide)

/-- C4: for an input with a complete 12-byte header carrying the magic tag, `Decode`
fails with `errInvalidFileSize` when the big-endian length at offset 8 differs from
the number of bytes after the header, and does not return that error when the two
are equal. -/
theorem length_validation (r : List Byte) (h12 : 12 ≤ r.length) (hm : r.take 4 = magic) :
    (fromBE ((r.drop 8).take 4) ≠ r.length - 12 → Decode r = .error .invalidFileSize) ∧
    (fromBE ((r.drop 8).take 4) = r.length - 12 → Decode r ≠ .error .invalidFileSize) := by
  rw [Decode_eq_decodeBody r h12, decodeBody]
  have hm2 : ¬ (r.take 4 ≠ magic) := fun h => h hm
  rw [if_neg hm2]
  constructor
  · intro hne
    rw [if_pos (by rw [List.length_drop]; exact hne)]
  · intro heq
    rw [if_neg (by rw [List.length_drop]; exact fun h => h heq)]
    intro hbad
    split at hbad
    · rename_i e he
      have := decodeLoop_panicOnly _ _ _ _ e he
      rw [this] at hbad
      cases hbad
    · cases hbad

theorem length_validation_witness :
    Decode [0x71, 0x6f, 0x69, 0x66, 0, 1, 0, 1, 0, 0, 0, 5, 0, 0, 0, 0] = .error .invalidFileSize :=
  (length_validation [0x71, 0x6f, 0x69, 0x66, 0, 1, 0, 1, 0, 0, 0, 5, 0, 0, 0, 0]
    (by decide) (by decide)).1 (by decide)

/-- C5: a grid of width 0 or height 0 is written as exactly 16 bytes: the magic
tag, the big-endian width and height, the length field 4 and four zero bytes; and
`Decode` of those bytes returns a grid of that width and height with no pixels. -/
theorem zero_size_image (m : Image) (h0 : m.w = 0 ∨ m.h = 0)
    (hw : m.w < 2 ^ 16) (hh : m.h < 2 ^ 16) :
    Encode m = magic ++ [byte (m.w >>> 8), byte m.w] ++ [byte (m.h >>> 8), byte m.h]
        ++ [0, 0, 0, 4] ++ [0, 0, 0, 0] ∧
      (Encode m).length = 16 ∧
      Decode (Encode m) = .ok { w := m.w, h := m.h, pix := [] } := by
  have hc : encodeChunks m = [] := by
    rw [encodeChunks_eq, pixelSeq_empty m h0]; rfl
  have hd : encodeData m = [0, 0, 0, 0] := by
    rw [encodeData, hc]; rfl
  have hn : m.w * m.h = 0 := by
    rcases h0 with h | h <;> simp [h]
  refine ⟨?_, ?_, ?_⟩
  · rw [Encode]
    rw [hd, be16_of_lt _ hw, be16_of_lt _ hh]
    rfl
  · rw [Encode_length, hd]; rfl
  · rw [Decode_Encode m hw hh (by rw [hd]; decide), hn, hc]
    rfl

theorem zero_size_image_witness :
    Decode (Encode { w := 0, h := 5, At := fun _ _ => Color.rgba zeroPx }) =
      .ok { w := 0, h := 5, pix := [] } :=
  (zero_size_image { w := 0, h := 5, At := fun _ _ => Color.rgba zeroPx }
    (Or.inl rfl) (by decide) (by decide)).2.2

/-- C6: the bytes written by `Encode` are the 4 bytes of the magic tag, the width
and the height as 2 big-endian bytes each, a 4-byte big-endian length `L`, and then
exactly `L` further bytes: the chunk stream followed by four zero bytes.  So `L` is
the chunk stream length plus 4 and the output has `12 + L` bytes. -/
theorem output_framing (m : Image) (hw : m.w < 2 ^ 16) (hh : m.h < 2 ^ 16)
    (hl : (encodeData m).length < 2 ^ 32) :
    Encode m = magic ++ [byte (m.w >>> 8), byte m.w] ++ [byte (m.h >>> 8), byte m.h]
        ++ be32 ((encodeChunks m).length + 4) ++ (encodeChunks m ++ [0, 0, 0, 0]) ∧
      fromBE [byte (m.w >>> 8), byte m.w] = m.w ∧
      fromBE [byte (m.h >>> 8), byte m.h] = m.h ∧
      fromBE (be32 ((encodeChunks m).length + 4)) = (encodeChunks m).length + 4 ∧
      ((Encode m).drop 12).length = (encodeChunks m).length + 4 ∧
      (Encode m).drop (12 + (encodeChunks m).length) = [0, 0, 0, 0] ∧
      (Encode m).length = 12 + ((encodeChunks m).length + 4) := by
  rw [encodeData_length] at hl
  have hE : Encode m = magic ++ [byte (m.w >>> 8), byte m.w] ++ [byte (m.h >>> 8), byte m.h]
        ++ be32 ((encodeChunks m).length + 4) ++ (encodeChunks m ++ [0, 0, 0, 0]) := by
    rw [Encode]
    rw [encodeData_length, be16_of_lt _ hw, be16_of_lt _ hh]
    rfl
  refine ⟨hE, ?_, ?_, ?_, ?_, ?_, ?_⟩
  · rw [← be16_of_lt _ hw, fromBE_be16, Nat.mod_eq_of_lt hw]
  · rw [← be16_of_lt _ hh, fromBE_be16, Nat.mod_eq_of_lt hh]
  · rw [fromBE_be32, Nat.mod_eq_of_lt hl]
  · rw [List.length_drop, Encode_length, encodeData_length]; omega
  · rw [hE]
    have : 12 + (encodeChunks m).length =
        (magic ++ [byte (m.w >>> 8), byte m.w] ++ [byte (m.h >>> 8), byte m.h]
          ++ be32 ((encodeChunks m).length + 4) ++ encodeChunks m).length := by
      simp only [List.length_append, be32_length, magic, List.length_cons, List.length_nil]
    rw [this, ← List.append_assoc, List.drop_left]
  · rw [Encode_length, encodeData_length]

theorem output_framing_witness :
    (Encode { w := 2, h := 1, At := fun x _ => Color.rgba { R := byte x, G := 7, B := 0, A := 255 } }).length
      = 12 + ((encodeChunks
          { w := 2, h := 1, At := fun x _ => Color.rgba { R := byte x, G := 7, B := 0, A := 255 } }).length + 4) :=
  (output_framing { w := 2, h := 1, At := fun x _ => Color.rgba { R := byte x, G := 7, B := 0, A := 255 } }
    (by decide) (by decide) (by decide)).2.2.2.2.2.2

/-- C7: the seven chunk tags form a prefix code.  For every byte exactly one of
the seven tag tests of the decoder holds, and whatever the order in which the
seven tests are tried, the first test that matches is that same one, so the
chain never falls through. -/
theorem tag_tests_exactly_one (b : Byte) :
    (tagTests b).count true = 1 ∧
    ∃ k, k < 7 ∧ ∀ l : List (Nat × Bool), l.Perm (numberedTests b) →
      l.find? (fun t => t.2) = some (k, true) := by
  refine ⟨tagTests_count b, ?_⟩
  obtain ⟨k, hk, hf⟩ := numberedTests_filter b
  refine ⟨k, hk, fun l hl => ?_⟩
  have h1 : (l.filter (fun t => t.2)).Perm [(k, true)] := by
    rw [← hf]; exact hl.filter _
  rw [find_eq_head_filter, List.perm_singleton.mp h1]
  rfl

/-- C8: a grid of `n` pixels, `1 ≤ n ≤ 8224`, all equal to the initial previous
pixel (0,0,0,255), is written as one run chunk followed by the 4 padding bytes: the
byte `0x40 | (n-1)` when `n ≤ 32`, the two bytes `0x60 | ((n-33) >> 8)` and
`(n-33) & 0xff` when `n ≥ 33`.  For `n = 32` the chunk is the byte `0x5f`. -/
theorem run_encoding (m : Image) (n : Nat) (hn : m.w * m.h = n) (h1 : 1 ≤ n) (h2 : n ≤ 8224)
    (hpx : ∀ x y, x < m.w → y < m.h → rgbaColor (m.At x y) = startPx) :
    (n ≤ 32 → (encodeData m).map Fin.val = [0x40 ||| (n - 1), 0, 0, 0, 0]) ∧
    (33 ≤ n → (encodeData m).map Fin.val =
      [0x60 ||| ((n - 33) >>> 8), (n - 33) &&& 0xff, 0, 0, 0, 0]) ∧
    (n = 32 → encodeData m = [0x5f, 0, 0, 0, 0]) := by
  obtain ⟨k, rfl⟩ : ∃ k, n = k + 1 := ⟨n - 1, by omega⟩
  have hc := encodeChunks_uniform_start m k (by rw [Nat.mul_comm]; exact hn) (by omega) hpx
  refine ⟨fun hle => ?_, fun hge => ?_, fun he => ?_⟩
  · rw [encodeData, hc, runChunk, if_pos (by omega)]
    simp only [List.cons_append, List.nil_append, List.map_cons, padding, List.replicate,
      List.map_nil, Nat.add_sub_cancel]
    rw [run8_byte k (by omega)]
    rfl
  · rw [encodeData, hc, runChunk, if_neg (by omega)]
    simp only [List.cons_append, List.nil_append, List.map_cons, padding, List.replicate,
      List.map_nil]
    rw [run16_byte _ (by rw [Nat.shiftRight_eq_div_pow]; omega), byte_val_and]
    rfl
  · have hk : k = 31 := by omega
    subst hk
    rw [encodeData, hc]
    decide

theorem run_encoding_witness :
    encodeData { w := 8, h := 4, At := fun _ _ => Color.rgba startPx } = [0x5f, 0, 0, 0, 0] :=
  (run_encoding { w := 8, h := 4, At := fun _ _ => Color.rgba startPx } 32 (by decide)
    (by decide) (by decide) (fun _ _ _ _ => rfl)).2.2 rfl

/-- C9, counterexample: 33 pixels equal to the initial previous pixel are written
as the single RUN16 chunk `0x60 0x00`; the stream does not begin with the RUN8
chunk `0x5f` of run length 32. -/
theorem run33_is_run16 :
    encodeChunks { w := 33, h := 1, At := fun _ _ => Color.rgba startPx } = [0x60, 0x00] ∧
    (encodeChunks { w := 33, h := 1, At := fun _ _ => Color.rgba startPx }).head? ≠ some 0x5f := by
  have h := encodeChunks_uniform_start { w := 33, h := 1, At := fun _ _ => Color.rgba startPx }
    32 rfl (by decide) (fun _ _ _ _ => rfl)
  rw [h]
  decide

/-- C9, amended: a grid of exactly 33 identical pixels is written as the single
RUN16 chunk `0x60 0x00` covering all 33 pixels when the pixels equal the initial
previous pixel (0,0,0,255); otherwise as the one chunk that encodes the first
pixel (INDEX 0 for the zero pixel, else a DIFF or COLOR chunk) followed by the RUN8
chunk `0x5f` of run length 32 covering the remaining 32 pixels. -/
theorem run_boundary_33 (m : Image) (c : RGBA) (hn : m.w * m.h = 33)
    (hpx : ∀ x y, x < m.w → y < m.h → rgbaColor (m.At x y) = c) :
    (c = startPx → encodeChunks m = [0x60, 0x00]) ∧
    (c ≠ startPx →
      encodeChunks m = (if c = zeroPx then [0x00] else diffChunk startPx c) ++ [0x5f]) := by
  have hn2 : m.h * m.w = 32 + 1 := by rw [Nat.mul_comm]; exact hn
  constructor
  · intro hc
    subst hc
    rw [encodeChunks_uniform_start m 32 hn2 (by decide) hpx]
    decide
  · intro hc
    rw [encodeChunks_eq, pixelSeq_uniform m c 32 hn2 hpx]
    rw [show (32 : Nat) = 31 + 1 from rfl, List.replicate_succ, List.cons_append, encOut_cons,
      encodeStep_first c hc]
    have h := (enc_run_last 31
      { index := if c = zeroPx then zeroCache else setSlot zeroCache ((colorHash c).val % 64) c,
        run := 0, pxPrev := c } (Nat.le_of_ble_eq_true rfl)).1
    rw [h]
    congr 1
    show runChunk (0 + 31 + 1) = [0x5f]
    decide

theorem run_boundary_33_witness :
    encodeChunks { w := 11, h := 3, At := fun _ _ => Color.rgba zeroPx } = [0x00, 0x5f] :=
  (run_boundary_33 { w := 11, h := 3, At := fun _ _ => Color.rgba zeroPx } zeroPx (by decide)
    (fun _ _ _ _ => rfl)).2 (by decide)

/-- C10: a grid of exactly 8225 pixels equal to the initial previous pixel is
written as the RUN16 chunk `0x7f 0xff` (8224 pixels, flushed when the counter
reaches the cap), the RUN8 chunk `0x40` (1 pixel, flushed at the end of the image)
and the padding; and for every grid the run counter is below 8224 after every
pixel, so the counter a flush writes, at most one more, never exceeds 8224. -/
theorem run_cap (m : Image) :
    (m.w * m.h = 8225 → (∀ x y, x < m.w → y < m.h → rgbaColor (m.At x y) = startPx) →
      encodeData m = [0x7f, 0xff, 0x40, 0, 0, 0, 0]) ∧
    (∀ k, (encEnd encInit ((pixelSeq m).take k)).run + 1 ≤ 8224) := by
  constructor
  · intro hn hpx
    have hn2 : m.h * m.w = 8224 + 1 := by rw [Nat.mul_comm]; exact hn
    rw [encodeData, encodeChunks_eq, pixelSeq_uniform m startPx 8224 hn2 hpx]
    rw [show (8224 : Nat) = 8223 + 1 from rfl, List.replicate_succ', List.append_assoc,
      encOut_append]
    have hr := enc_run 8223 encInit (by decide)
    simp only [encInit] at hr
    simp only [encInit]
    rw [hr.1, hr.2]
    simp only [List.singleton_append, encOut, List.nil_append, List.append_nil]
    rw [encodeStep_same]
    simp only [Nat.zero_add, Bool.false_eq_true, or_false, if_true]
    rw [show encodeStep { index := zeroCache, run := 0, pxPrev := startPx } startPx true =
        encodeStep { index := zeroCache, run := 0, pxPrev := startPx }
          ({ index := zeroCache, run := 0, pxPrev := startPx } : EncState).pxPrev true from rfl,
      encodeStep_same]
    simp only [or_true, if_true]
    decide
  · intro k
    have := encEnd_run_lt ((pixelSeq m).take k) encInit (by decide)
    omega

theorem run_cap_witness :
    encodeData { w := 8225, h := 1, At := fun _ _ => Color.rgba startPx } =
      [0x7f, 0xff, 0x40, 0, 0, 0, 0] :=
  (run_cap { w := 8225, h := 1, At := fun _ _ => Color.rgba startPx }).1 (by decide)
    (fun _ _ _ _ => rfl)

/-- C11: for a pixel that differs from the previous pixel and is not in its slot of
the colour table, the encoder writes (after the flush of a pending run) the chunk
`diffChunk`: a DIFF8 chunk of 1 byte iff the alpha difference is 0 and the colour
differences lie in [-1,2]; otherwise a DIFF16 chunk of 2 bytes iff the alpha
difference is 0, the red difference lies in [-15,16] and green and blue in [-7,8];
otherwise a DIFF24 chunk of 3 bytes iff all four differences lie in [-15,16];
otherwise a COLOR chunk whose presence bits 8, 4, 2, 1 are set exactly for the
channels R, G, B, A with a non-zero difference and which is followed by the values
of exactly those channels in that order.  So the differences (2,2,2,0) give DIFF8,
(16,8,8,0) DIFF16, (16,16,16,16) DIFF24 and (17,0,0,0) the bytes `0xf8`, new R. -/
theorem literal_choice (s : EncState) (px : RGBA) (last : Bool)
    (hne : px ≠ s.pxPrev) (hmiss : s.index ((colorHash px).val % 64) ≠ px) :
    (encodeStep s px last).2 =
        (if s.run > 0 then runChunk s.run else []) ++ diffChunk s.pxPrev px ∧
    (chunkKind (diffChunk s.pxPrev px) = some .diff8 ↔ inDiff8 s.pxPrev px) ∧
    (chunkKind (diffChunk s.pxPrev px) = some .diff16 ↔
      ¬ inDiff8 s.pxPrev px ∧ inDiff16 s.pxPrev px) ∧
    (chunkKind (diffChunk s.pxPrev px) = some .diff24 ↔
      ¬ inDiff8 s.pxPrev px ∧ ¬ inDiff16 s.pxPrev px ∧ inDiff24 s.pxPrev px) ∧
    (chunkKind (diffChunk s.pxPrev px) = some .color ↔ ¬ inDiff24 s.pxPrev px) ∧
    (chunkKind (diffChunk s.pxPrev px) = some .diff8 → (diffChunk s.pxPrev px).length = 1) ∧
    (chunkKind (diffChunk s.pxPrev px) = some .diff16 → (diffChunk s.pxPrev px).length = 2) ∧
    (chunkKind (diffChunk s.pxPrev px) = some .diff24 → (diffChunk s.pxPrev px).length = 3) ∧
    (chunkKind (diffChunk s.pxPrev px) = some .color →
      ∃ b1 : Byte,
        diffChunk s.pxPrev px =
          [b1] ++ (if delta s.pxPrev.R px.R ≠ 0 then [px.R] else [])
            ++ (if delta s.pxPrev.G px.G ≠ 0 then [px.G] else [])
            ++ (if delta s.pxPrev.B px.B ≠ 0 then [px.B] else [])
            ++ (if delta s.pxPrev.A px.A ≠ 0 then [px.A] else []) ∧
        b1.val &&& qoiMask4 = qoiColor ∧
        (b1.val &&& 8 ≠ 0 ↔ delta s.pxPrev.R px.R ≠ 0) ∧
        (b1.val &&& 4 ≠ 0 ↔ delta s.pxPrev.G px.G ≠ 0) ∧
        (b1.val &&& 2 ≠ 0 ↔ delta s.pxPrev.B px.B ≠ 0) ∧
        (b1.val &&& 1 ≠ 0 ↔ delta s.pxPrev.A px.A ≠ 0)) ∧
    (delta s.pxPrev.R px.R = 2 ∧ delta s.pxPrev.G px.G = 2 ∧ delta s.pxPrev.B px.B = 2 ∧
      delta s.pxPrev.A px.A = 0 → chunkKind (diffChunk s.pxPrev px) = some .diff8) ∧
    (delta s.pxPrev.R px.R = 16 ∧ delta s.pxPrev.G px.G = 8 ∧ delta s.pxPrev.B px.B = 8 ∧
      delta s.pxPrev.A px.A = 0 → chunkKind (diffChunk s.pxPrev px) = some .diff16) ∧
    (delta s.pxPrev.R px.R = 16 ∧ delta s.pxPrev.G px.G = 16 ∧ delta s.pxPrev.B px.B = 16 ∧
      delta s.pxPrev.A px.A = 16 → chunkKind (diffChunk s.pxPrev px) = some .diff24) ∧
    (delta s.pxPrev.R px.R = 17 ∧ delta s.pxPrev.G px.G = 0 ∧ delta s.pxPrev.B px.B = 0 ∧
      delta s.pxPrev.A px.A = 0 → diffChunk s.pxPrev px = [0xf8, px.R]) := by
  have hstep : (encodeStep s px last).2 =
      (if s.run > 0 then runChunk s.run else []) ++ diffChunk s.pxPrev px := by
    rw [encodeStep_diff s px last hne, if_neg hmiss, if_neg hmiss]
  have h8_24 : inDiff8 s.pxPrev px → inDiff24 s.pxPrev px := by
    unfold inDiff8 inDiff24; intro h; omega
  have h16_24 : inDiff16 s.pxPrev px → inDiff24 s.pxPrev px := by
    unfold inDiff16 inDiff24; intro h; omega
  have hk8 : chunkKind (diffChunk s.pxPrev px) = some .diff8 ↔ inDiff8 s.pxPrev px := by
    rcases diffChunk_cases s.pxPrev px with ⟨a, k, _⟩ | ⟨a, _, k, _⟩ | ⟨a, _, _, k, _⟩ | ⟨a, _, _, k⟩
    · exact ⟨fun _ => a, fun _ => k⟩
    all_goals
      rw [k]
      exact ⟨fun h => (by cases h), fun h => absurd h a⟩
  have hk16 : chunkKind (diffChunk s.pxPrev px) = some .diff16 ↔
      ¬ inDiff8 s.pxPrev px ∧ inDiff16 s.pxPrev px := by
    rcases diffChunk_cases s.pxPrev px with ⟨a, k, _⟩ | ⟨a, b, k, _⟩ | ⟨_, b, _, k, _⟩ | ⟨_, b, _, k⟩
    · rw [k]; exact ⟨fun h => (by cases h), fun h => absurd a h.1⟩
    · exact ⟨fun _ => ⟨a, b⟩, fun _ => k⟩
    all_goals
      rw [k]
      exact ⟨fun h => (by cases h), fun h => absurd h.2 b⟩
  have hk24 : chunkKind (diffChunk s.pxPrev px) = some .diff24 ↔
      ¬ inDiff8 s.pxPrev px ∧ ¬ inDiff16 s.pxPrev px ∧ inDiff24 s.pxPrev px := by
    rcases diffChunk_cases s.pxPrev px with ⟨a, k, _⟩ | ⟨_, b, k, _⟩ | ⟨a, b, c, k, _⟩ | ⟨_, _, c, k⟩
    · rw [k]; exact ⟨fun h => (by cases h), fun h => absurd a h.1⟩
    · rw [k]; exact ⟨fun h => (by cases h), fun h => absurd b h.2.1⟩
    · exact ⟨fun _ => ⟨a, b, c⟩, fun _ => k⟩
    · rw [k]; exact ⟨fun h => (by cases h), fun h => absurd h.2.2 c⟩
  have hkc : chunkKind (diffChunk s.pxPrev px) = some .color ↔ ¬ inDiff24 s.pxPrev px := by
    rcases diffChunk_cases s.pxPrev px with ⟨a, k, _⟩ | ⟨_, b, k, _⟩ | ⟨_, _, c, k, _⟩ | ⟨_, _, c, k⟩
    · rw [k]; exact ⟨fun h => (by cases h), fun h => absurd (h8_24 a) h⟩
    · rw [k]; exact ⟨fun h => (by cases h), fun h => absurd (h16_24 b) h⟩
    · rw [k]; exact ⟨fun h => (by cases h), fun h => absurd c h⟩
    · exact ⟨fun _ => c, fun _ => k⟩
  have hlen : (chunkKind (diffChunk s.pxPrev px) = some .diff8 →
        (diffChunk s.pxPrev px).length = 1) ∧
      (chunkKind (diffChunk s.pxPrev px) = some .diff16 → (diffChunk s.pxPrev px).length = 2) ∧
      (chunkKind (diffChunk s.pxPrev px) = some .diff24 →
        (diffChunk s.pxPrev px).length = 3) := by
    rcases diffChunk_cases s.pxPrev px with ⟨_, k, l⟩ | ⟨_, _, k, l⟩ | ⟨_, _, _, k, l⟩ | ⟨_, _, _, k⟩
    all_goals
      rw [k]
      refine ⟨fun h => ?_, fun h => ?_, fun h => ?_⟩
      all_goals first
        | exact l
        | cases h
  refine ⟨hstep, hk8, hk16, hk24, hkc, hlen.1, hlen.2.1, hlen.2.2, ?_, ?_, ?_, ?_, ?_⟩
  · intro hk
    have hc := diffChunk_color s.pxPrev px (hkc.mp hk)
    have hp := color_presence (delta s.pxPrev.R px.R) (delta s.pxPrev.G px.G)
      (delta s.pxPrev.B px.B) (delta s.pxPrev.A px.A)
    have ht := tagOf_color (delta s.pxPrev.R px.R) (delta s.pxPrev.G px.G)
      (delta s.pxPrev.B px.B) (delta s.pxPrev.A px.A)
    refine ⟨_, hc, ?_, hp⟩
    obtain ⟨_, _, _, _, _, _, h7, _⟩ :=
      color_bits_flags (decide (delta s.pxPrev.R px.R ≠ 0)) (decide (delta s.pxPrev.G px.G ≠ 0))
        (decide (delta s.pxPrev.B px.B ≠ 0)) (decide (delta s.pxPrev.A px.A ≠ 0))
    rw [cond3_eq, cond3_eq, cond3_eq, cond3_eq]
    exact h7
  · intro h
    apply hk8.mpr
    unfold inDiff8; omega
  · intro h
    apply hk16.mpr
    unfold inDiff8 inDiff16; omega
  · intro h
    apply hk24.mpr
    unfold inDiff8 inDiff16 inDiff24; omega
  · intro h
    rw [diffChunk_color s.pxPrev px (by unfold inDiff24; omega), h.1, h.2.1, h.2.2.1, h.2.2.2]
    simp [cond3]
    decide

theorem literal_choice_witness :
    diffChunk startPx { R := 17, G := 0, B := 0, A := 255 } = [0xf8, 17] :=
  (literal_choice encInit { R := 17, G := 0, B := 0, A := 255 } false (by decide)
    (by decide)).2.2.2.2.2.2.2.2.2.2.2.2 (by decide)

/-- C12: for every transition the encoder writes as a DIFF24 chunk, the three bytes
read as one big-endian 24-bit number are `0xE00000 + (ΔR+15)·2^15 + (ΔG+15)·2^10 +
(ΔB+15)·2^5 + (ΔA+15)`, and the decoder, reading these three bytes, extracts exactly
the four biased values `ΔR+15`, `ΔG+15`, `ΔB+15`, `ΔA+15` before it removes the bias
15 and adds them to the channels. -/
theorem diff24_layout (prev px : RGBA) (h24 : inDiff24 prev px) (hn8 : ¬ inDiff8 prev px)
    (hn16 : ¬ inDiff16 prev px) :
    ∃ b1 b2 b3 : Byte, diffChunk prev px = [b1, b2, b3] ∧
      chunkKind (diffChunk prev px) = some .diff24 ∧
      (fromBE [b1, b2, b3] : Int) =
        0xE00000 + (delta prev.R px.R + 15) * 2 ^ 15 + (delta prev.G px.G + 15) * 2 ^ 10 +
          (delta prev.B px.B + 15) * 2 ^ 5 + (delta prev.A px.A + 15) ∧
      ∀ (data : List Byte) (s : DecState) (p : Nat),
        readByte data p = .ok b2 → readByte data (p + 1) = .ok b3 →
        decodeTag data s b1 p =
          .ok ({ R := add8 s.px.R (sub8 (byte (delta prev.R px.R + 15).toNat) 15),
                 G := add8 s.px.G (sub8 (byte (delta prev.G px.G + 15).toNat) 15),
                 B := add8 s.px.B (sub8 (byte (delta prev.B px.B + 15).toNat) 15),
                 A := add8 s.px.A (sub8 (byte (delta prev.A px.A + 15).toNat) 15) },
               s.run, p + 2) := by
  have hc := diffChunk_diff24 prev px h24 hn16
  have hr : (delta prev.R px.R + 15).toNat < 32 := by unfold inDiff24 at h24; omega
  have hg : (delta prev.G px.G + 15).toNat < 32 := by unfold inDiff24 at h24; omega
  have hb : (delta prev.B px.B + 15).toNat < 32 := by unfold inDiff24 at h24; omega
  have ha : (delta prev.A px.A + 15).toNat < 32 := by unfold inDiff24 at h24; omega
  refine ⟨_, _, _, hc, ?_, ?_, ?_⟩
  · rcases diffChunk_cases prev px with ⟨a, _⟩ | ⟨_, b, _⟩ | ⟨_, _, _, k, _⟩ | ⟨_, _, c, _⟩
    · exact absurd a hn8
    · exact absurd b hn16
    · exact k
    · exact absurd h24 c
  · rw [diff24_number _ _ _ _ hr hg hb ha]
    unfold inDiff24 at h24
    push_cast
    rw [Int.toNat_of_nonneg (by omega), Int.toNat_of_nonneg (by omega),
      Int.toNat_of_nonneg (by omega), Int.toNat_of_nonneg (by omega)]
  · intro data s p h2 h3
    exact decodeTag_diff24 data s p _ _ _ _ hr hg hb ha h2 h3

theorem diff24_layout_witness :
    ∃ b1 b2 b3 : Byte,
      diffChunk zeroPx { R := 16, G := 16, B := 16, A := 16 } = [b1, b2, b3] ∧
      (fromBE [b1, b2, b3] : Int) = 0xE00000 + 31 * 2 ^ 15 + 31 * 2 ^ 10 + 31 * 2 ^ 5 + 31 := by
  obtain ⟨b1, b2, b3, h1, _, h3, _⟩ :=
    diff24_layout zeroPx { R := 16, G := 16, B := 16, A := 16 } (by decide) (by decide)
      (by decide)
  exact ⟨b1, b2, b3, h1, h3⟩

/-- C13: for a pixel `px` that differs from the previous pixel, with
`slot = colorHash px % 64`: if the colour table holds `px` in that slot the encoder
writes (after the flush of a pending run) exactly one byte, equal to `slot`, an
INDEX chunk, and leaves the table unchanged; otherwise it writes a DIFF8, DIFF16,
DIFF24 or COLOR chunk, stores `px` in that slot and leaves the other slots
unchanged.  Hence, when `px` is then seen again after one or more pixels of other
slots, it is written as the INDEX chunk `slot`. -/
theorem cache_hit_miss (s : EncState) (px : RGBA) (last : Bool) (hne : px ≠ s.pxPrev) :
    (s.index ((colorHash px).val % 64) = px →
      (encodeStep s px last).2 =
          (if s.run > 0 then runChunk s.run else []) ++ [byte (qoiIndex ||| ((colorHash px).val % 64))] ∧
        (byte (qoiIndex ||| ((colorHash px).val % 64))).val = (colorHash px).val % 64 ∧
        chunkKind [byte (qoiIndex ||| ((colorHash px).val % 64))] = some .index ∧
        (encodeStep s px last).1.index = s.index) ∧
    (s.index ((colorHash px).val % 64) ≠ px →
      (encodeStep s px last).2 =
          (if s.run > 0 then runChunk s.run else []) ++ diffChunk s.pxPrev px ∧
        (chunkKind (diffChunk s.pxPrev px) = some .diff8 ∨
          chunkKind (diffChunk s.pxPrev px) = some .diff16 ∨
          chunkKind (diffChunk s.pxPrev px) = some .diff24 ∨
          chunkKind (diffChunk s.pxPrev px) = some .color) ∧
        (encodeStep s px last).1.index ((colorHash px).val % 64) = px ∧
        (∀ k, k ≠ (colorHash px).val % 64 → (encodeStep s px last).1.index k = s.index k) ∧
        ∀ (mid : List (RGBA × Bool)) (last2 : Bool), mid ≠ [] →
          (∀ t ∈ mid, (colorHash t.1).val % 64 ≠ (colorHash px).val % 64) →
          (encodeStep (encEnd (encodeStep s px last).1 mid) px last2).2 =
            (if (encEnd (encodeStep s px last).1 mid).run > 0
              then runChunk (encEnd (encodeStep s px last).1 mid).run else []) ++
              [byte (qoiIndex ||| ((colorHash px).val % 64))]) := by
  have hk : (colorHash px).val % 64 < 64 := Nat.mod_lt _ (by decide)
  constructor
  · intro hhit
    refine ⟨?_, index_byte_val _ hk, ?_, ?_⟩
    · rw [encodeStep_diff s px last hne, if_pos hhit, if_pos hhit]
    · simp only [chunkKind, List.head?_cons, Option.some_bind]
      exact tagOf_index _ hk
    · rw [encodeStep_diff s px last hne, if_pos hhit]
  · intro hmiss
    have hidx : (encodeStep s px last).1.index ((colorHash px).val % 64) = px := by
      rw [encodeStep_diff s px last hne, if_neg hmiss]
      simp [setSlot]
    refine ⟨?_, ?_, hidx, fun k hk' => encodeStep_index_other s px last k hk', ?_⟩
    · rw [encodeStep_diff s px last hne, if_neg hmiss, if_neg hmiss]
    · rcases diffChunk_cases s.pxPrev px with ⟨_, k, _⟩ | ⟨_, _, k, _⟩ | ⟨_, _, _, k, _⟩ | ⟨_, _, _, k⟩
      · exact Or.inl k
      · exact Or.inr (Or.inl k)
      · exact Or.inr (Or.inr (Or.inl k))
      · exact Or.inr (Or.inr (Or.inr k))
    · intro mid last2 hmid hslots
      obtain ⟨t, tl, rfl⟩ : ∃ t tl, mid = t :: tl := by
        cases mid with
        | nil => exact absurd rfl hmid
        | cons t tl => exact ⟨t, tl, rfl⟩
      have hpxs : ∀ u ∈ t :: tl, u.1 ≠ px := by
        intro u hu e
        exact hslots u hu (by rw [e])
      have hprev : (encEnd (encodeStep s px last).1 (t :: tl)).pxPrev ≠ px := by
        simp only [encEnd]
        apply encEnd_pxPrev_ne
        · rw [encodeStep_pxPrev]; exact hpxs t (List.mem_cons_self _ _)
        · exact fun u hu => hpxs u (List.mem_cons_of_mem _ hu)
      have hslot : (encEnd (encodeStep s px last).1 (t :: tl)).index ((colorHash px).val % 64)
          = px := by
        rw [encEnd_index_other _ _ _ hslots]
        exact hidx
      rw [encodeStep_diff _ px last2 (fun e => hprev e.symm), if_pos hslot, if_pos hslot]

theorem cache_hit_miss_witness :
    (encodeStep encInit zeroPx false).2 =
      (if encInit.run > 0 then runChunk encInit.run else []) ++
        [byte (qoiIndex ||| ((colorHash zeroPx).val % 64))] :=
  ((cache_hit_miss encInit zeroPx false (by decide)).1 (by decide)).1

/-- C14, counterexample: for the grid of one start pixel the encoder writes the
RUN8 chunk `0x40` and never touches its colour table, while the decoder stores the
pixel after the run chunk: slot 63 is (0,0,0,0) in the encoder and (0,0,0,255) in
the decoder. -/
theorem caches_differ_after_run :
    ∃ d, decodeLoop (encodeData startPixelImage) (encodeChunks startPixelImage).length
        (startPixelImage.w * startPixelImage.h) decInit = .ok d ∧
      (encodePixels startPixelImage).1.index 63 = zeroPx ∧
      d.index 63 = startPx ∧
      (encodePixels startPixelImage).1.index 63 ≠ d.index 63 := by
  refine ⟨_, rfl, ?_, ?_, ?_⟩ <;> decide

/-- C14, amended: after `Encode` has processed a grid and `Decode` has decoded the
bytes written, the decoder's current pixel equals the encoder's previous pixel, and
the two colour tables agree in every slot except possibly slot 63, where the
decoder may hold the start pixel (0,0,0,255) while the encoder still holds the zero
pixel. -/
theorem state_agreement (m : Image) (hw : m.w < 2 ^ 16) (hh : m.h < 2 ^ 16)
    (hl : (encodeData m).length < 2 ^ 32) :
    ∃ d, decodeLoop (encodeData m) (encodeChunks m).length (m.w * m.h) decInit = .ok d ∧
      Decode (Encode m) = .ok { w := m.w, h := m.h, pix := d.pix } ∧
      d.px = (encodePixels m).1.pxPrev ∧
      (∀ k, k ≠ 63 → d.index k = (encodePixels m).1.index k) ∧
      (d.index 63 = (encodePixels m).1.index 63 ∨
        ((encodePixels m).1.index 63 = zeroPx ∧ d.index 63 = startPx)) := by
  obtain ⟨d, h1, h2, h3⟩ := decodeLoop_encodeData_state m
  refine ⟨d, h1, ?_, h2, ?_, ?_⟩
  · rw [Decode_Encode m hw hh hl, h1]
  · intro k hk
    rcases h3 k with e | ⟨e, _⟩
    · exact e.symm
    · exact absurd e hk
  · rcases h3 63 with e | ⟨_, e1, e2⟩
    · exact Or.inl e.symm
    · exact Or.inr ⟨e1, e2⟩

theorem state_agreement_witness :
    ∃ d, decodeLoop (encodeData sampleImage) (encodeChunks sampleImage).length
        (sampleImage.w * sampleImage.h) decInit = .ok d ∧
      d.px = (encodePixels sampleImage).1.pxPrev := by
  obtain ⟨d, h1, _, h3, _⟩ := state_agreement sampleImage (by decide) (by decide) (by decide)
  exact ⟨d, h1, h3⟩

/-- C15: in the decoder a DIFF8, DIFF16 or DIFF24 chunk with any payload bits sets
each covered channel to (old value + field − bias) mod 256, without clamping: the
2-bit fields of DIFF8 have bias 1, the 5-bit red field of DIFF16 bias 15 and its
4-bit green and blue fields bias 7, the four 5-bit fields of DIFF24 (read off the
24-bit big-endian number formed by the three bytes) bias 15; DIFF8 and DIFF16 leave
the alpha channel unchanged. -/
theorem diff_wraparound (data : List Byte) (s : DecState) (p : Nat) (b1 : Byte) :
    (b1.val &&& qoiMask2 = qoiDiff8 →
      ∃ px', decodeTag data s b1 p = .ok (px', s.run, p) ∧
        (px'.R.val : Int) = ((s.px.R.val : Int) + ((b1.val / 16 % 4 : Nat) - 1)) % 256 ∧
        (px'.G.val : Int) = ((s.px.G.val : Int) + ((b1.val / 4 % 4 : Nat) - 1)) % 256 ∧
        (px'.B.val : Int) = ((s.px.B.val : Int) + ((b1.val % 4 : Nat) - 1)) % 256 ∧
        px'.A = s.px.A) ∧
    (b1.val &&& qoiMask3 = qoiDiff16 → ∀ b2 : Byte, readByte data p = .ok b2 →
      ∃ px', decodeTag data s b1 p = .ok (px', s.run, p + 1) ∧
        (px'.R.val : Int) = ((s.px.R.val : Int) + ((b1.val % 32 : Nat) - 15)) % 256 ∧
        (px'.G.val : Int) = ((s.px.G.val : Int) + ((b2.val / 16 : Nat) - 7)) % 256 ∧
        (px'.B.val : Int) = ((s.px.B.val : Int) + ((b2.val % 16 : Nat) - 7)) % 256 ∧
        px'.A = s.px.A) ∧
    (b1.val &&& qoiMask4 = qoiDiff24 → ∀ b2 b3 : Byte,
      readByte data p = .ok b2 → readByte data (p + 1) = .ok b3 →
      ∃ px', decodeTag data s b1 p = .ok (px', s.run, p + 2) ∧
        (px'.R.val : Int) =
          ((s.px.R.val : Int) + ((fromBE [b1, b2, b3] / 2 ^ 15 % 32 : Nat) - 15)) % 256 ∧
        (px'.G.val : Int) =
          ((s.px.G.val : Int) + ((fromBE [b1, b2, b3] / 2 ^ 10 % 32 : Nat) - 15)) % 256 ∧
        (px'.B.val : Int) =
          ((s.px.B.val : Int) + ((fromBE [b1, b2, b3] / 2 ^ 5 % 32 : Nat) - 15)) % 256 ∧
        (px'.A.val : Int) =
          ((s.px.A.val : Int) + ((fromBE [b1, b2, b3] % 32 : Nat) - 15)) % 256) := by
  refine ⟨fun h => ?_, fun h b2 hb2 => ?_, fun h b2 b3 hb2 hb3 => ?_⟩
  · obtain ⟨h1, h2, h3, f1, f2, f3⟩ := diff8_fields b1 h
    refine ⟨{ R := add8 s.px.R (sub8 (byte ((b1.val >>> 4) &&& 0x03)) 1)
              G := add8 s.px.G (sub8 (byte ((b1.val >>> 2) &&& 0x03)) 1)
              B := add8 s.px.B (sub8 (byte (b1.val &&& 0x03)) 1)
              A := s.px.A }, ?_, ?_, ?_, ?_, rfl⟩
    · unfold decodeTag
      rw [if_neg h1, if_neg h2, if_neg h3, if_pos h]
    · simp only []
      rw [f1]
      exact add8_sub8_val _ 1 _ 1 rfl (by omega)
    · simp only []
      rw [f2]
      exact add8_sub8_val _ 1 _ 1 rfl (by omega)
    · simp only []
      rw [f3]
      exact add8_sub8_val _ 1 _ 1 rfl (by omega)
  · obtain ⟨h1, h2, h3, h4, f1⟩ := diff16_fields1 b1 h
    obtain ⟨f2, f3⟩ := diff16_fields2 b2
    refine ⟨{ R := add8 s.px.R (sub8 (byte (b1.val &&& 0x1f)) 15)
              G := add8 s.px.G (sub8 (byte (b2.val >>> 4)) 7)
              B := add8 s.px.B (sub8 (byte (b2.val &&& 0x0f)) 7)
              A := s.px.A }, ?_, ?_, ?_, ?_, rfl⟩
    · unfold decodeTag
      rw [if_neg h1, if_neg h2, if_neg h3, if_neg h4, if_pos h, hb2]
      rfl
    · simp only []
      rw [f1]
      exact add8_sub8_val _ 15 _ 15 rfl (by omega)
    · simp only []
      rw [f2]
      exact add8_sub8_val _ 7 _ 7 rfl (by omega)
    · simp only []
      rw [f3]
      exact add8_sub8_val _ 7 _ 7 rfl (by omega)
  · obtain ⟨h1, h2, h3, h4, h5, hhi, f1⟩ := diff24_fields1 b1 h
    obtain ⟨f2, f3, f4⟩ := diff24_fields2 b2
    obtain ⟨f5, f6⟩ := diff24_fields3 b3
    have hN : fromBE [b1, b2, b3] = (b1.val * 256 + b2.val) * 256 + b3.val := by
      simp [fromBE]
    have eR : fromBE [b1, b2, b3] / 2 ^ 15 % 32 = (b1.val % 16) * 2 + b2.val / 128 := by
      rw [hN]; omega
    have eG : fromBE [b1, b2, b3] / 2 ^ 10 % 32 = b2.val / 4 % 32 := by
      rw [hN]; omega
    have eB : fromBE [b1, b2, b3] / 2 ^ 5 % 32 = (b2.val % 4) * 8 + b3.val / 32 := by
      rw [hN]; omega
    have eA : fromBE [b1, b2, b3] % 32 = b3.val % 32 := by
      rw [hN]; omega
    refine ⟨{ R := add8 s.px.R (sub8 (byte (((b1.val &&& 0x0f) <<< 1) ||| (b2.val >>> 7))) 15)
              G := add8 s.px.G (sub8 (byte ((b2.val &&& 0x7c) >>> 2)) 15)
              B := add8 s.px.B
                (sub8 (byte (((b2.val &&& 0x03) <<< 3) ||| ((b3.val &&& 0xe0) >>> 5))) 15)
              A := add8 s.px.A (sub8 (byte (b3.val &&& 0x1f)) 15) }, ?_, ?_, ?_, ?_, ?_⟩
    · unfold decodeTag
      rw [if_neg h1, if_neg h2, if_neg h3, if_neg h4, if_neg h5, if_pos h, hb2, hb3]
      rfl
    · simp only []
      rw [f1, f2, or_bit _ (by omega) _ (by omega), eR]
      exact add8_sub8_val _ 15 _ 15 rfl (by omega)
    · simp only []
      rw [f3, eG]
      exact add8_sub8_val _ 15 _ 15 rfl (by omega)
    · simp only []
      rw [f4, f5, or_low3 _ (by omega) _ (by omega), eB]
      exact add8_sub8_val _ 15 _ 15 rfl (by omega)
    · simp only []
      rw [f6, eA]
      exact add8_sub8_val _ 15 _ 15 rfl (by omega)

theorem diff_wraparound_witness :
    ∃ px', decodeTag [] decInit 0x85 0 = .ok (px', decInit.run, 0) ∧
      (px'.R.val : Int) = 255 := by
  obtain ⟨px', h1, h2, _⟩ := (diff_wraparound [] decInit 0 0x85).1 (by decide)
  exact ⟨px', h1, h2⟩

/-- C16, counterexample: after the COLOR chunk `fd 01 01 00` slot 0 of the colour
table holds (1,1,0,0); the INDEX chunk `05` that follows selects the empty slot 5,
makes the zero pixel current and stores it in slot 0, so the table has changed. -/
theorem index_chunk_overwrites_slot0 :
    ∃ s s', decodeLoop indexOverwriteData 5 1 decInit = .ok s ∧
      readByte indexOverwriteData s.p = .ok 0x05 ∧
      decodeChunk indexOverwriteData s = .ok s' ∧
      s'.px = s.index 5 ∧
      s.index 0 = { R := 1, G := 1, B := 0, A := 0 } ∧
      s'.index 0 = zeroPx ∧
      s'.index 0 ≠ s.index 0 := by
  refine ⟨_, _, rfl, rfl, rfl, ?_, ?_, ?_, ?_⟩ <;> decide

/-- C16, amended: for every decoder state reachable while decoding a byte stream and
every INDEX chunk with slot number `k`, after the chunk the current pixel is the old
content of slot `k`, and all slots other than slot 0 are as before.  The whole table
is as before when the old content of slot `k` hashes to `k` or slot 0 held the zero
pixel; otherwise slot `k` held the initial zero pixel, `k ≠ 0`, and slot 0 now holds
the zero pixel. -/
theorem index_chunk_effect (data : List Byte) (cl n : Nat) (s : DecState) (b1 : Byte)
    (hreach : decodeLoop data cl n decInit = .ok s)
    (hb : readByte data s.p = .ok b1) (htag : b1.val &&& qoiMask2 = qoiIndex) :
    ∃ s', decodeChunk data s = .ok s' ∧ s'.px = s.index b1.val ∧ b1.val < 64 ∧
      (∀ i, i ≠ 0 → s'.index i = s.index i) ∧
      ((colorHash (s.index b1.val)).val % 64 = b1.val → s'.index = s.index) ∧
      (s.index 0 = zeroPx → s'.index = s.index) ∧
      ((colorHash (s.index b1.val)).val % 64 ≠ b1.val →
        s.index b1.val = zeroPx ∧ b1.val ≠ 0 ∧ s'.index 0 = zeroPx) := by
  have hinv : SlotsHashed s.index :=
    decodeLoop_slotsHashed data cl n decInit s slotsHashed_zeroCache hreach
  have hx : b1.val ^^^ qoiIndex = b1.val := by
    simp [qoiIndex]
  have hchunk : decodeChunk data s =
      .ok { px := s.index b1.val,
            index := setSlot s.index ((colorHash (s.index b1.val)).val % 64) (s.index b1.val),
            p := s.p + 1, run := s.run, pix := s.pix } := by
    unfold decodeChunk
    rw [hb]
    simp only [Except.bind]
    unfold decodeTag
    rw [if_pos htag, hx]
  refine ⟨_, hchunk, rfl, index_tag_lt b1 htag, ?_, ?_, ?_, ?_⟩
  · intro i hi
    simp only [setSlot]
    split
    · rename_i hik
      rcases hinv b1.val with hz | hh
      · rw [hz, hash_zeroPx] at hik
        exact absurd hik hi
      · rw [hh] at hik
        rw [hik]
    · rfl
  · intro hh
    simp only []
    rw [hh]
    exact setSlot_same _ _ _ rfl
  · intro h0
    simp only []
    rcases hinv b1.val with hz | hh
    · rw [hz, hash_zeroPx]
      exact setSlot_same _ _ _ h0
    · rw [hh]
      exact setSlot_same _ _ _ rfl
  · intro hne
    rcases hinv b1.val with hz | hh
    · refine ⟨hz, ?_, ?_⟩
      · intro h0
        rw [hz, hash_zeroPx] at hne
        exact hne h0.symm
      · simp only [hz, hash_zeroPx, setSlot, if_true]
    · exact absurd hh hne

theorem index_chunk_effect_witness :
    ∃ s', decodeChunk [0x00, 0, 0, 0, 0] decInit = .ok s' ∧ s'.px = decInit.index 0 := by
  obtain ⟨s', h1, h2, _⟩ := index_chunk_effect [0x00, 0, 0, 0, 0] 0 0 decInit 0x00 rfl rfl
    (by decide)
  exact ⟨s', h1, h2⟩

/-- C17: on an input with a valid header whose length field is at least 4 and
equals the number of bytes after the header, `Decode` returns a grid with
width times height pixels; a position reached with no pending run after the
chunk bytes are used up gets the current pixel, which is the pixel of the
position before it, or the start pixel at position 0; and with the length field 4
every pixel is the start pixel (0, 0, 0, 255). -/
theorem exhausted_stream (r : List Byte) (hlen : 12 ≤ r.length) (hmagic : r.take 4 = magic)
    (hL : fromBE ((r.drop 8).take 4) = (r.drop 12).length) (h4 : 4 ≤ (r.drop 12).length) :
    ∃ img, Decode r = .ok img ∧
      img.w = fromBE ((r.drop 4).take 2) ∧ img.h = fromBE ((r.drop 6).take 2) ∧
      img.pix.length = img.w * img.h ∧
      (∀ i s, i < img.w * img.h →
        decodeLoop (r.drop 12) ((r.drop 12).length - 4) i decInit = .ok s →
        s.run = 0 → (r.drop 12).length - 4 ≤ s.p →
        img.pix[i]? = some s.px ∧ (0 < i → img.pix[i]? = img.pix[i - 1]?) ∧
        (i = 0 → img.pix[i]? = some startPx)) ∧
      ((r.drop 12).length = 4 → img.pix = List.replicate (img.w * img.h) startPx) := by
  obtain ⟨sN, hN, hD⟩ := Decode_valid r hlen hmagic hL h4
  refine ⟨_, hD, rfl, rfl, ?_, ?_, ?_⟩
  · obtain ⟨l, hl1, hl2, _⟩ := decodeLoop_pix _ _ _ _ _ hN
    show sN.pix.length = _
    rw [hl1]
    exact hl2
  · intro i s hi hs hrun hp
    obtain ⟨h1, h2, h3⟩ := decodeLoop_position _ _ _ i s sN hi hN hs hrun hp
    refine ⟨h1, fun hpos => ?_, fun h0 => ?_⟩
    · show sN.pix[i]? = sN.pix[i - 1]?
      rw [h1, h2 hpos]
    · show sN.pix[i]? = some startPx
      rw [h1, h3 h0]
  · intro h
    rw [h] at hN
    rw [decodeLoop_no_chunks _ _ decInit rfl] at hN
    cases hN
    rfl

theorem exhausted_stream_witness :
    ∃ img, Decode exhaustedInput = .ok img ∧ img.pix = [startPx, startPx] := by
  obtain ⟨img, h1, h2, h3, _, _, h6⟩ :=
    exhausted_stream exhaustedInput (by decide) (by decide) (by decide) (by decide)
  refine ⟨img, h1, ?_⟩
  rw [h6 (by decide), h2, h3]
  decide

/-- C18: on an input with a valid header whose length field L is at least 4 and
equals the number of bytes after the header, whatever the L bytes are, `Decode`
returns a grid, so no read is out of range; after any number of output positions
the read position is at most L; a step that does not start a chunk reads nothing;
and a chunk, which starts only below L - 4, is decoded successfully, ends at most
5 bytes after its start and within the data, and depends on no byte other than
the five at its start. -/
theorem lookahead_covered (r : List Byte) (hlen : 12 ≤ r.length) (hmagic : r.take 4 = magic)
    (hL : fromBE ((r.drop 8).take 4) = (r.drop 12).length) (h4 : 4 ≤ (r.drop 12).length) :
    (∃ img, Decode r = .ok img) ∧
    ∀ n, ∃ s, decodeLoop (r.drop 12) ((r.drop 12).length - 4) n decInit = .ok s ∧
      s.p ≤ (r.drop 12).length ∧
      (¬ (s.run = 0 ∧ s.p < (r.drop 12).length - 4) →
        ∀ data', decodeStep data' ((r.drop 12).length - 4) s =
          decodeStep (r.drop 12) ((r.drop 12).length - 4) s) ∧
      (s.run = 0 → s.p < (r.drop 12).length - 4 →
        ∃ s', decodeChunk (r.drop 12) s = .ok s' ∧ s.p < s'.p ∧ s'.p ≤ s.p + 5 ∧
          s'.p ≤ (r.drop 12).length ∧
          ∀ data', (∀ j, j < 5 → data'[s.p + j]? = (r.drop 12)[s.p + j]?) →
            decodeChunk data' s = .ok s') := by
  obtain ⟨sN, _, hD⟩ := Decode_valid r hlen hmagic hL h4
  refine ⟨⟨_, hD⟩, fun n => ?_⟩
  obtain ⟨s, hs⟩ := decodeLoop_ok (r.drop 12) ((r.drop 12).length - 4) (by omega) n decInit
  have hp := decodeLoop_p (r.drop 12) ((r.drop 12).length - 4) (by omega) n decInit s hs
    (Nat.zero_le _)
  refine ⟨s, hs, by omega, fun hidle data' => ?_, fun hrun hlt => ?_⟩
  · exact decodeStep_idle (r.drop 12) data' _ s (by omega)
  · obtain ⟨s', h1, l1, u1⟩ := decodeChunk_ok (r.drop 12) s (by omega)
    refine ⟨s', h1, by omega, u1, by omega, fun data' hd => ?_⟩
    rw [decodeChunk_congr (r.drop 12) data' s (by omega) hd, h1]

theorem lookahead_covered_witness :
    ∃ img, Decode truncatedInput = .ok img :=
  (lookahead_covered truncatedInput (by decide) (by decide) (by decide) (by decide)).1

/-- C19: for every pixel grid of `n = width × height` pixels the chunk stream with
its padding is at most `5 n + 4` bytes long, so the whole output of `Encode` is at
most `16 + 5 n` bytes long. -/
theorem encoded_size_bound (m : Image) :
    (encodeData m).length ≤ 5 * (m.w * m.h) + 4 ∧
    (Encode m).length ≤ 16 + 5 * (m.w * m.h) := by
  have h := encOut_size (pixelSeq m) encInit
  rw [pixelSeq_length, ← encodeChunks_eq] at h
  have h0 : encInit.run = 0 := rfl
  rw [h0] at h
  have hd := encodeData_length m
  have he := Encode_length m
  have hc : m.h * m.w = m.w * m.h := Nat.mul_comm _ _
  rw [hc] at h
  constructor <;> omega

/-- C20: `rgbaColor` returns the pixel (0,0,0,0) for every colour that is neither a
`color.RGBA` nor a `color.NRGBA`, whatever its channel values are; it returns a
`color.RGBA` value unchanged and copies the four channel bytes of a `color.NRGBA`
value. -/
theorem rgbaColor_cases (r g b a : Nat) (c : RGBA) (nr ng nb na : Byte) :
    rgbaColor (Color.other r g b a) = { R := 0, G := 0, B := 0, A := 0 } ∧
    rgbaColor (Color.rgba c) = c ∧
    rgbaColor (Color.nrgba nr ng nb na) = { R := nr, G := ng, B := nb, A := na } := by
  refine ⟨?_, rfl, rfl⟩
  have hz : ∀ v : Nat, byte ((v <<< 8) % 2 ^ 32) = 0 := by
    intro v
    apply Fin.ext
    simp only [byte, Nat.shiftLeft_eq]
    show v * 2 ^ 8 % 2 ^ 32 % 256 = 0
    omega
  simp only [rgbaColor, hz]

end Goi
